import Mathlib

/-!
Verification of the khmer word segmenter (khmer-rs).

The development shallowly embeds the Rust sources:
  * `src/khmer-rs/src/constants.rs`   — codepoint classification predicates
  * `src/khmer-rs/src/dictionary.rs`  — dictionary construction, trie, lookups
  * `src/khmer-rs/src/segmenter.rs`   — DP segmentation core and pass 1
  * `src/khmer-rs/src/heuristics.rs`  — post-processing passes 2 and 3

Strings are modelled as lists of codepoints (`List CP`, `CP := ℕ`).
`f32` costs are modelled as exact rationals (`ℚ`); `f32::INFINITY` is the
`none` value of `Option ℚ`.  The `-log10` computation of the frequency
branch is abstracted as a rational-valued parameter `nlg`, since the claims
under verification never depend on its value.
-/

/-- A Unicode codepoint, as a natural number. -/
abbrev CP := ℕ

/-! ## constants.rs -/

/-- `is_khmer_char` from constants.rs. -/
def is_khmer_char (c : CP) : Bool :=
  (0x1780 ≤ c && c ≤ 0x17FF) || (0x19E0 ≤ c && c ≤ 0x19FF)

/-- `is_consonant` from constants.rs: base consonants U+1780 … U+17A2. -/
def is_consonant (c : CP) : Bool :=
  0x1780 ≤ c && c ≤ 0x17A2

/-- `is_independent_vowel` from constants.rs: U+17A3 … U+17B3. -/
def is_independent_vowel (c : CP) : Bool :=
  0x17A3 ≤ c && c ≤ 0x17B3

/-- `is_dependent_vowel` from constants.rs: U+17B6 … U+17C5. -/
def is_dependent_vowel (c : CP) : Bool :=
  0x17B6 ≤ c && c ≤ 0x17C5

/-- `is_sign` from constants.rs: U+17C6 … U+17D1, U+17D3, U+17DD. -/
def is_sign (c : CP) : Bool :=
  (0x17C6 ≤ c && c ≤ 0x17D1) || c = 0x17D3 || c = 0x17DD

/-- `is_coeng` from constants.rs: the subscript former U+17D2. -/
def is_coeng (c : CP) : Bool := c = 0x17D2

/-- `is_digit` from constants.rs: ASCII 0-9 or Khmer U+17E0 … U+17E9. -/
def is_digit (c : CP) : Bool :=
  (0x30 ≤ c && c ≤ 0x39) || (0x17E0 ≤ c && c ≤ 0x17E9)

/-- `is_currency_symbol` from constants.rs: `$`, U+17DB, `€`, `£`, `¥`. -/
def is_currency_symbol (c : CP) : Bool :=
  c = 0x24 || c = 0x17DB || c = 0x20AC || c = 0xA3 || c = 0xA5

/-- `is_separator` from constants.rs: Khmer punctuation U+17D4 … U+17DA,
the currency sign U+17DB, and a fixed ASCII / punctuation set. -/
def is_separator (c : CP) : Bool :=
  (0x17D4 ≤ c && c ≤ 0x17DA) || c = 0x17DB ||
  c = 0x21 || c = 0x3F || c = 0x2E || c = 0x2C || c = 0x3B || c = 0x3A ||
  c = 0x22 || c = 0x27 || c = 0x28 || c = 0x29 || c = 0x5B || c = 0x5D ||
  c = 0x7B || c = 0x7D || c = 0x2D || c = 0x2F || c = 0xAB || c = 0xBB ||
  c = 0x201C || c = 0x201D || c = 0x2DD || c = 0x24 || c = 0x25 || c = 0x20

/-- `is_valid_single_word` from constants.rs: the 15 whitelisted base
consonants and 8 whitelisted independent vowels. -/
def is_valid_single_word (c : CP) : Bool :=
  c = 0x1780 || c = 0x1781 || c = 0x1782 || c = 0x1784 || c = 0x1785 ||
  c = 0x1786 || c = 0x1789 || c = 0x178A || c = 0x178F || c = 0x1791 ||
  c = 0x1796 || c = 0x179A || c = 0x179B || c = 0x179F || c = 0x17A1 ||
  c = 0x17AC || c = 0x17AE || c = 0x17AA || c = 0x17AF || c = 0x17B1 ||
  c = 0x17A6 || c = 0x17A7 || c = 0x17B3

/-! ## segmenter.rs helper functions (codepoint versions) -/

/-- The inner `while` of `get_khmer_cluster_length_cps`, acting on the
codepoints following the base character: swallows `⟨coeng, consonant⟩`
pairs, dependent vowels and signs, and stops at anything else. -/
def clusterLoop : List CP → ℕ
  | [] => 0
  | c :: rest =>
    if is_coeng c then
      match rest with
      | c2 :: rest2 => if is_consonant c2 then 2 + clusterLoop rest2 else 0
      | [] => 0
    else if is_dependent_vowel c || is_sign c then 1 + clusterLoop rest
    else 0

/-- `get_khmer_cluster_length_cps` from segmenter.rs. -/
def get_khmer_cluster_length_cps (cps : List CP) (start : ℕ) : ℕ :=
  if cps.length ≤ start then 0
  else if !(0x1780 ≤ cps.getD start 0 && cps.getD start 0 ≤ 0x17B3) then 1
  else 1 + clusterLoop (cps.drop (start + 1))

/-- The inner `while` of `get_number_length_cps`, acting on the codepoints
following the initial digit; its value is `last_valid_len - 1`, i.e. the
extension beyond the first digit up to and including the last digit
reached (a `,`/`.`/space is crossed only when a digit follows it). -/
def numExt : List CP → ℕ
  | [] => 0
  | c :: rest =>
    if is_digit c then 1 + numExt rest
    else if c = 0x2C || c = 0x2E || c = 0x20 then
      match rest with
      | c2 :: rest2 => if is_digit c2 then 2 + numExt rest2 else 0
      | [] => 0
    else 0

/-- `get_number_length_cps` from segmenter.rs.  Returns 0 when `start` is
out of range or `cps[start]` is not a digit. -/
def get_number_length_cps (cps : List CP) (start : ℕ) : ℕ :=
  if cps.length ≤ start then 0
  else if !is_digit (cps.getD start 0) then 0
  else 1 + numExt (cps.drop (start + 1))

/-- The `loop` of `get_acronym_length_cps`: repeatedly consume a Khmer
cluster followed by `'.'`; returns the final scan position.  The `fuel`
argument only bounds the recursion; `cps.length` suffices because every
iteration advances the position. -/
def acroLoop (cps : List CP) : ℕ → ℕ → ℕ
  | 0, current => current
  | fuel + 1, current =>
    let cl := get_khmer_cluster_length_cps cps current
    if 0 < cl then
      let dotIndex := current + cl
      if dotIndex < cps.length && cps.getD dotIndex 0 = 0x2E then
        if cps.length ≤ dotIndex + 1 then dotIndex + 1
        else acroLoop cps fuel (dotIndex + 1)
      else current
    else current

/-- `get_acronym_length_cps` from segmenter.rs. -/
def get_acronym_length_cps (cps : List CP) (start : ℕ) : ℕ :=
  acroLoop cps cps.length start - start

/-- `is_acronym_start_cps` from segmenter.rs. -/
def is_acronym_start_cps (cps : List CP) (start : ℕ) : Bool :=
  if cps.length ≤ start then false
  else
    let clusterLen := get_khmer_cluster_length_cps cps start
    if clusterLen = 0 then false
    else
      let dotIndex := start + clusterLen
      if cps.length ≤ dotIndex then false
      else cps.getD dotIndex 0 = 0x2E

/-! ## dictionary.rs: trie and dictionary structure -/

/-- `TrieNode` from dictionary.rs.  The `FxHashMap<char, Box<TrieNode>>` of
children is modelled as an association list. -/
inductive TrieNode : Type where
  | node (children : List (CP × TrieNode)) (isWord : Bool) (cost : ℚ) : TrieNode

/-- The children of a trie node. -/
def TrieNode.children : TrieNode → List (CP × TrieNode)
  | .node cs _ _ => cs

/-- The `is_word` flag of a trie node. -/
def TrieNode.isWord : TrieNode → Bool
  | .node _ b _ => b

/-- The stored cost of a trie node (`f32` default 0.0 for fresh nodes). -/
def TrieNode.cost : TrieNode → ℚ
  | .node _ _ q => q

/-- `TrieNode::default()`: no children, not a word, cost 0. -/
def TrieNode.empty : TrieNode := .node [] false 0

/-- Hash-map `get` on the children association list (`TrieNode::get_child`). -/
def childAssoc (cs : List (CP × TrieNode)) (c : CP) : Option TrieNode :=
  (cs.find? (fun p => decide (p.1 = c))).map (fun p => p.2)

/-- In-place update of the child bound to `c` (the mutation performed
through `get_or_create_child` when the child already exists). -/
def childUpdate (cs : List (CP × TrieNode)) (c : CP) (t : TrieNode) :
    List (CP × TrieNode) :=
  cs.map (fun p => if p.1 = c then (c, t) else p)

/-- Trie insertion: the loop over a word's codepoints in `Dictionary::new`
(`get_or_create_child` per codepoint, then set `is_word` and `cost`). -/
def trieInsert : TrieNode → List CP → ℚ → TrieNode
  | t, [], q => .node t.children true q
  | t, c :: rest, q =>
    match childAssoc t.children c with
    | some child => .node (childUpdate t.children c (trieInsert child rest q)) t.isWord t.cost
    | none => .node (t.children ++ [(c, trieInsert TrieNode.empty rest q)]) t.isWord t.cost

/-- Whole-word trie lookup (the composition of `get_child` steps followed
by the `is_word` test, as in `Dictionary::lookup_codepoints`). -/
def trieLookup : TrieNode → List CP → Option ℚ
  | t, [] => if t.isWord then some t.cost else none
  | t, c :: rest =>
    match childAssoc t.children c with
    | some child => trieLookup child rest
    | none => none

/-- `Dictionary` from dictionary.rs.  `words` maps a word to its index
(`FxHashMap<String, usize>` as an association list), `costs` maps the
index to the unigram cost. -/
structure Dictionary : Type where
  words : List (List CP × ℕ)
  costs : List ℚ
  trie : TrieNode
  max_word_length : ℕ
  default_cost : ℚ
  unknown_cost : ℚ

/-- Hash-map `get` on the `words` association list. -/
def wordsFind (l : List (List CP × ℕ)) (w : List CP) : Option ℕ :=
  (l.find? (fun p => decide (p.1 = w))).map (fun p => p.2)

/-- Hash-map `insert` (overwrite if present, else append). -/
def wordsInsert (l : List (List CP × ℕ)) (w : List CP) (i : ℕ) :
    List (List CP × ℕ) :=
  if (wordsFind l w).isSome then l.map (fun p => if p.1 = w then (w, i) else p)
  else l ++ [(w, i)]

/-- `Dictionary::contains`. -/
def Dictionary.contains (d : Dictionary) (w : List CP) : Bool :=
  (wordsFind d.words w).isSome

/-- `Dictionary::get_word_cost`. -/
def Dictionary.get_word_cost (d : Dictionary) (w : List CP) : ℚ :=
  match wordsFind d.words w with
  | some idx =>
    match d.costs[idx]? with
    | some q => q
    | none => d.default_cost
  | none => d.unknown_cost

/-- The index-bounded walk of `Dictionary::lookup_codepoints`. -/
def lookupGo (cps : List CP) : TrieNode → ℕ → ℕ → Option ℚ
  | t, i, fin =>
    if _h : i < fin then
      match childAssoc t.children (cps.getD i 0) with
      | some child => lookupGo cps child (i + 1) fin
      | none => none
    else if t.isWord then some t.cost else none
  termination_by _ i fin => fin - i

/-- `Dictionary::lookup_codepoints`. -/
def Dictionary.lookup_codepoints (d : Dictionary) (cps : List CP)
    (start fin : ℕ) : Option ℚ :=
  lookupGo cps d.trie start fin

/-! ## dictionary.rs: spelling-variant generation -/

/-- Does the 2-codepoint pattern `[a, b]` occur in the list?  Models Rust
`str::contains` for a two-codepoint pattern. -/
def contains2 (a b : CP) : List CP → Bool
  | x :: y :: rest => (x = a && y = b) || contains2 a b (y :: rest)
  | _ => false

/-- `String::replace` of the 2-codepoint pattern `[a, b]` by `[a2, b2]`
(leftmost, non-overlapping). -/
def replace2 (a b a2 b2 : CP) : List CP → List CP
  | [] => []
  | [x] => [x]
  | x :: y :: rest =>
    if x = a && y = b then a2 :: b2 :: replace2 a b a2 b2 rest
    else x :: replace2 a b a2 b2 (y :: rest)

/-- Pass 1 of the coeng-RO reordering in `generate_variants`: rewrite every
window `[coeng, RO, coeng, X]` (X ≠ RO) to `[coeng, X, coeng, RO]`,
advancing by 4 after a rewrite.  Also returns the `modified` flag. -/
def roSwapA : List CP → List CP × Bool
  | c0 :: c1 :: c2 :: c3 :: rest =>
    if c0 = 0x17D2 && c1 = 0x179A && c2 = 0x17D2 && !(c3 = 0x179A) then
      let r := roSwapA rest
      (c2 :: c3 :: c0 :: c1 :: r.1, true)
    else
      let r := roSwapA (c1 :: c2 :: c3 :: rest)
      (c0 :: r.1, r.2)
  | l => (l, false)

/-- Pass 2 of the coeng-RO reordering in `generate_variants`: rewrite every
window `[coeng, X, coeng, RO]` (X ≠ RO) to `[coeng, RO, coeng, X]`. -/
def roSwapB : List CP → List CP × Bool
  | c0 :: c1 :: c2 :: c3 :: rest =>
    if c0 = 0x17D2 && !(c1 = 0x179A) && c2 = 0x17D2 && c3 = 0x179A then
      let r := roSwapB rest
      (c2 :: c3 :: c0 :: c1 :: r.1, true)
    else
      let r := roSwapB (c1 :: c2 :: c3 :: rest)
      (c0 :: r.1, r.2)
  | l => (l, false)

/-- Hash-set `insert`: add the word if it is not yet present. -/
def insertSet (s : List (List CP)) (w : List CP) : List (List CP) :=
  if w ∈ s then s else s ++ [w]

/-- `Dictionary::generate_variants`: Ta/Da subscript swap plus coeng-RO
reordering applied to the original and each Ta/Da variant.  The returned
hash set is modelled as a duplicate-free list. -/
def generate_variants (word : List CP) : List (List CP) :=
  let v1 :=
    if contains2 0x17D2 0x178F word then
      insertSet [] (replace2 0x17D2 0x178F 0x17D2 0x178D word)
    else []
  let v2 :=
    if contains2 0x17D2 0x178D word then
      insertSet v1 (replace2 0x17D2 0x178D 0x17D2 0x178F word)
    else v1
  let baseSet := insertSet v2 word
  baseSet.foldl
    (fun acc w =>
      let r1 := roSwapA w
      let acc1 := if r1.2 then insertSet acc r1.1 else acc
      let r2 := roSwapB w
      if r2.2 then insertSet acc1 r2.1 else acc1)
    v2

/-! ## dictionary.rs: word-list ingestion and filtering -/

/-- Rust `char::is_whitespace` (the Unicode White_Space codepoints). -/
def is_rust_whitespace (c : CP) : Bool :=
  (0x09 ≤ c && c ≤ 0x0D) || c = 0x20 || c = 0x85 || c = 0xA0 || c = 0x1680 ||
  (0x2000 ≤ c && c ≤ 0x200A) || c = 0x2028 || c = 0x2029 || c = 0x202F ||
  c = 0x205F || c = 0x3000

/-- Rust `str::trim`. -/
def trimCP (l : List CP) : List CP :=
  ((l.dropWhile is_rust_whitespace).reverse.dropWhile is_rust_whitespace).reverse

/-- Rust `str::starts_with('\u{17D2}')`. -/
def startsWithCoeng : List CP → Bool
  | c :: _ => c = 0x17D2
  | [] => false

/-- Rust `str::ends_with(c)` for a single codepoint. -/
def endsWithCP (c : CP) (l : List CP) : Bool :=
  match l.getLast? with
  | some x => x = c
  | none => false

/-- Rust `str::split(c)` for a single codepoint separator. -/
def splitOnCP (c : CP) : List CP → List (List CP)
  | [] => [[]]
  | x :: rest =>
    if x = c then [] :: splitOnCP c rest
    else
      match splitOnCP c rest with
      | h :: t => (x :: h) :: t
      | [] => [[x]]

/-- The first loop of `Dictionary::load_words`: trim each line, skip empty
lines and non-whitelisted single codepoints, insert the word and all its
spelling variants into the working hash set. -/
def loadWordsIngest (lines : List (List CP)) : List (List CP) :=
  lines.foldl
    (fun ws line =>
      let word := trimCP line
      if word = [] then ws
      else if word.length = 1 && !is_valid_single_word (word.headD 0) then ws
      else
        let ws1 := insertSet ws word
        (generate_variants word).foldl insertSet ws1)
    []

/-- The first removal condition of the variant filter in `load_words`:
the word contains the independent vowel RYY (U+17AC, `ឬ`), has more than
one codepoint, and decomposes around it into known words. -/
def ryyRemove (s : List (List CP)) (w : List CP) : Bool :=
  w.contains 0x17AC && decide (1 < w.length) &&
  (if w.headD 0 = 0x17AC then decide (w.drop 1 ∈ s)
   else if endsWithCP 0x17AC w then decide (w.dropLast ∈ s)
   else (splitOnCP 0x17AC w).all (fun p => p ∈ s || p = []))

/-- The union of the three removal conditions of the variant filter in
`load_words` (checked against the pre-removal set `s`). -/
def shouldRemove (s : List (List CP)) (w : List CP) : Bool :=
  ryyRemove s w || w.contains 0x17D7 || startsWithCoeng w

/-- `Dictionary::load_words`: ingestion, variant filter, removal of a bare
`ៗ`, and the recomputed `max_word_length`. -/
def load_words (lines : List (List CP)) : List (List CP) × ℕ :=
  let s := loadWordsIngest lines
  let s2 := s.filter (fun w => !shouldRemove s w)
  let s3 := if [0x17D7] ∈ s2 then s2.filter (fun w => decide (w ≠ [0x17D7])) else s2
  (s3, s3.foldl (fun m w => max m w.length) 0)

/-! ## dictionary.rs: cost computation and construction -/

/-- Hash-map `get` on a word → cost association list. -/
def costFind (l : List (List CP × ℚ)) (w : List CP) : Option ℚ :=
  (l.find? (fun p => decide (p.1 = w))).map (fun p => p.2)

/-- Hash-map `insert` (overwrite). -/
def costInsert (l : List (List CP × ℚ)) (w : List CP) (q : ℚ) :
    List (List CP × ℚ) :=
  if (costFind l w).isSome then l.map (fun p => if p.1 = w then (w, q) else p)
  else l ++ [(w, q)]

/-- Hash-map `entry(..).or_insert(..)` (insert only if absent). -/
def costInsertIfAbsent (l : List (List CP × ℚ)) (w : List CP) (q : ℚ) :
    List (List CP × ℚ) :=
  if (costFind l w).isSome then l else l ++ [(w, q)]

/-- `Dictionary::calculate_costs`.  The frequency file is `none` when the
file does not exist (the non-fatal branch), otherwise `some data` with the
parsed JSON object as a word → count list.  `nlg q` abstracts the real
number `-log₁₀ q` computed with `f32::log10`; no claim under verification
depends on its value. -/
def calculate_costs (nlg : ℚ → ℚ) (freq : Option (List (List CP × ℚ)))
    (wordsSet : List (List CP)) : List (List CP × ℚ) × ℚ × ℚ :=
  match freq with
  | none => ([], 10, 20)
  | some data =>
    let effectiveCounts := data.foldl
      (fun m p =>
        let eff := max p.2 5
        let m1 := costInsert m p.1 eff
        (generate_variants p.1).foldl (fun m2 v => costInsertIfAbsent m2 v eff) m1)
      []
    let totalTokens := data.foldl (fun t p => t + max p.2 5) 0
    if 0 < totalTokens then
      let defaultCost := nlg (5 / totalTokens)
      let unknownCost := defaultCost + 5
      let wordCosts := effectiveCounts.foldl
        (fun wc p =>
          if p.1 ∈ wordsSet then
            if 0 < p.2 / totalTokens then costInsert wc p.1 (nlg (p.2 / totalTokens))
            else wc
          else wc)
        []
      (wordCosts, defaultCost, unknownCost)
    else ([], 10, 20)

/-- The build loop of `Dictionary::new` (step 3): for each word, in
enumeration order, resolve its cost, insert it into the word map, push the
cost, and insert it into the trie. -/
def buildGo (wordCosts : List (List CP × ℚ)) (defaultCost : ℚ) :
    List (List CP) → ℕ → List (List CP × ℕ) → List ℚ → TrieNode →
    List (List CP × ℕ) × List ℚ × TrieNode
  | [], _, wm, cv, tr => (wm, cv, tr)
  | w :: rest, i, wm, cv, tr =>
    let cost := (costFind wordCosts w).getD defaultCost
    buildGo wordCosts defaultCost rest (i + 1) (wordsInsert wm w i)
      (cv ++ [cost]) (trieInsert tr w cost)

/-- `Dictionary::new`: load the words, compute the costs, and build the
hash map, cost vector and trie. -/
def Dictionary.new (nlg : ℚ → ℚ) (dictLines : List (List CP))
    (freq : Option (List (List CP × ℚ))) : Dictionary :=
  let loaded := load_words dictLines
  let costsRes := calculate_costs nlg freq loaded.1
  let built := buildGo costsRes.1 costsRes.2.1 loaded.1 0 [] [] TrieNode.empty
  { words := built.1
    costs := built.2.1
    trie := built.2.2
    max_word_length := loaded.2
    default_cost := costsRes.2.1
    unknown_cost := costsRes.2.2 }

/-! ## segmenter.rs: the DP core -/

/-- The two parallel DP arrays (`dp_cost`, `dp_parent`) of
`segment_with_buffers`.  `f32::INFINITY` is `none`; `dp_parent = -1` is
`none`. -/
structure DPState : Type where
  cost : List (Option ℚ)
  parent : List (Option ℕ)

/-- The `f32` comparison `new_cost < dp_cost[next_idx]` where the right
side may be `+∞`. -/
def ltInf (q : ℚ) : Option ℚ → Bool
  | none => true
  | some x => decide (q < x)

/-- One relaxation: if `newCost` beats the recorded cost at `nextIdx`,
write the new cost and set the parent pointer to `i`. -/
def relax (st : DPState) (i nextIdx : ℕ) (newCost : ℚ) : DPState :=
  if ltInf newCost (st.cost.getD nextIdx none) then
    ⟨st.cost.set nextIdx (some newCost), st.parent.set nextIdx (some i)⟩
  else st

/-- The dictionary-match loop of `segment_with_buffers` (transition 4):
for `j` from `i+1` to `min(i + max_word_len, n)`, relax on every trie
hit.  `cur` is the cached `current_cost`. -/
def dictRelax (d : Dictionary) (cps : List CP) (i : ℕ) (cur : ℚ)
    (st : DPState) : DPState :=
  let endLimit := min (i + d.max_word_length) cps.length
  (List.range' (i + 1) (endLimit - i)).foldl
    (fun s j =>
      match d.lookup_codepoints cps i j with
      | some w => relax s i j (cur + w)
      | none => s)
    st

/-- The repair (recovery-mode) transition of `segment_with_buffers`:
consume one codepoint with cost `unknown_cost + 50.0`. -/
def repairRelax (d : Dictionary) (cps : List CP) (i : ℕ) (cur : ℚ)
    (st : DPState) : DPState :=
  if i + 1 ≤ cps.length then relax st i (i + 1) (cur + d.unknown_cost + 50) else st

/-- Transition 1 of `segment_with_buffers` (digit / currency run). -/
def numberRelax (cps : List CP) (i : ℕ) (cur : ℚ) (st : DPState) : DPState :=
  if is_digit (cps.getD i 0) ||
      (is_currency_symbol (cps.getD i 0) &&
        (decide (i + 1 < cps.length) && is_digit (cps.getD (i + 1) 0))) then
    if i + get_number_length_cps cps i ≤ cps.length then
      relax st i (i + get_number_length_cps cps i) (cur + 1)
    else st
  else st

/-- Transition 2 of `segment_with_buffers` (separator). -/
def sepRelax (cps : List CP) (i : ℕ) (cur : ℚ) (st : DPState) : DPState :=
  if is_separator (cps.getD i 0) then
    if i + 1 ≤ cps.length then relax st i (i + 1) (cur + 1/10) else st
  else st

/-- Transition 3 of `segment_with_buffers` (acronym). -/
def acronymRelax (cps : List CP) (i : ℕ) (cur : ℚ) (st : DPState) : DPState :=
  if is_acronym_start_cps cps i then
    if i + get_acronym_length_cps cps i ≤ cps.length then
      relax st i (i + get_acronym_length_cps cps i) (cur + 1)
    else st
  else st

/-- Transition 5 of `segment_with_buffers` (unknown cluster fallback /
non-Khmer single codepoint). -/
def fallbackRelax (d : Dictionary) (cps : List CP) (i : ℕ) (cur : ℚ)
    (st : DPState) : DPState :=
  if is_khmer_char (cps.getD i 0) then
    if i + get_khmer_cluster_length_cps cps i ≤ cps.length then
      relax st i (i + get_khmer_cluster_length_cps cps i)
        (cur + (if get_khmer_cluster_length_cps cps i = 1 &&
            !is_valid_single_word (cps.getD i 0) then
          d.unknown_cost + 10 else d.unknown_cost))
    else st
  else
    if i + 1 ≤ cps.length then relax st i (i + 1) (cur + d.unknown_cost) else st

/-- One iteration of the main DP loop of `segment_with_buffers` at
position `i`: skip on infinite cost; repair gate; otherwise the
digit/currency, separator, acronym, dictionary and cluster-fallback
transitions in source order. -/
def dpStep (d : Dictionary) (cps : List CP) (st : DPState) (i : ℕ) : DPState :=
  match st.cost.getD i none with
  | none => st
  | some cur =>
    if (decide (0 < i) && is_coeng (cps.getD (i - 1) 0)) ||
        is_dependent_vowel (cps.getD i 0) then
      repairRelax d cps i cur st
    else
      fallbackRelax d cps i cur
        (dictRelax d cps i cur
          (acronymRelax cps i cur
            (sepRelax cps i cur
              (numberRelax cps i cur st))))

/-- The freshly reset DP arrays: `cost[0] = 0`, everything else `+∞`, all
parents `-1`. -/
def initState (n : ℕ) : DPState :=
  ⟨some 0 :: List.replicate n none, List.replicate (n + 1) none⟩

/-- The full DP main loop `for i in 0..n`. -/
def dpLoop (d : Dictionary) (cps : List CP) : DPState :=
  (List.range cps.length).foldl (dpStep d cps) (initState cps.length)

/-- The backtrack `while curr > 0` loop.  Walks the parent pointers,
pushing each substring `cps[prev..curr]`; the second component is `true`
iff the `prev == -1` error branch was hit (or the fuel ran out, which the
safety theorem shows cannot happen).  The caller reverses the pushed
list. -/
def backtrackGo (parent : List (Option ℕ)) (cps : List CP) :
    ℕ → ℕ → List (List CP) → List (List CP) × Bool
  | 0, curr, acc => (acc, decide (0 < curr))
  | fuel + 1, curr, acc =>
    if 0 < curr then
      match parent.getD curr none with
      | none => (acc, true)
      | some p => backtrackGo parent cps fuel p (acc ++ [(cps.take curr).drop p])
    else (acc, false)

/-- Backtracking from `n` followed by the final `reverse`. -/
def runBacktrack (parent : List (Option ℕ)) (cps : List CP) :
    List (List CP) × Bool :=
  let r := backtrackGo parent cps cps.length cps.length []
  (r.1.reverse, r.2)

/-! ## segmenter.rs: pass 1 (snap invalid single consonants) -/

/-- `get_first_char`: first codepoint, or `' '` for the empty string. -/
def get_first_char (s : List CP) : CP := s.headD 0x20

/-- The loop body of `snap_invalid_single_consonants_fast`, carried over
the remaining tokens with the running output list `out` and the input
index `j`. -/
def snapGo (d : Dictionary) : List (List CP) → ℕ → List (List CP) → List (List CP)
  | [], _, out => out
  | seg :: rest, j, out =>
    let firstChar := get_first_char seg
    let isInvalidSingle := seg.length = 1 && !is_valid_single_word firstChar &&
      !d.contains seg && !is_digit firstChar && !is_separator firstChar
    if isInvalidSingle then
      let prevIsSep :=
        if !out.isEmpty then
          let prevSeg := out.getLastD []
          is_separator (get_first_char prevSeg) || prevSeg = [0x20] || prevSeg = [0x200B]
        else decide (j = 0)
      let nextIsSep :=
        match rest with
        | nextSeg :: _ =>
          is_separator (get_first_char nextSeg) || nextSeg = [0x20] || nextSeg = [0x200B]
        | [] => true
      if prevIsSep && nextIsSep then snapGo d rest (j + 1) (out ++ [seg])
      else if !out.isEmpty then
        if !is_separator (get_first_char (out.getLastD [])) then
          snapGo d rest (j + 1) (out.dropLast ++ [out.getLastD [] ++ seg])
        else snapGo d rest (j + 1) (out ++ [seg])
      else snapGo d rest (j + 1) (out ++ [seg])
    else snapGo d rest (j + 1) (out ++ [seg])

/-- `snap_invalid_single_consonants_fast` from segmenter.rs. -/
def snap_invalid_single_consonants (d : Dictionary) (segments : List (List CP)) :
    List (List CP) :=
  snapGo d segments 0 []

/-! ## heuristics.rs: pass 2 (combining-sign merges) -/

/-- The length computed by `get_chars_2`: it undercounts codepoints that
are `' '` among the first two positions (and pads missing positions with
`' '`). -/
def chars2Len (s : List CP) : ℕ :=
  (if s.getD 0 0x20 ≠ 0x20 then 1 else 0) +
  (if s.getD 1 0x20 ≠ 0x20 then 1 else 0) +
  (s.length - min s.length 2)

/-- The length computed by `get_chars_3` (same undercounting for the first
three positions). -/
def chars3Len (s : List CP) : ℕ :=
  (if s.getD 0 0x20 ≠ 0x20 then 1 else 0) +
  (if s.getD 1 0x20 ≠ 0x20 then 1 else 0) +
  (if s.getD 2 0x20 ≠ 0x20 then 1 else 0) +
  (s.length - min s.length 3)

/-- The `while i < n` loop of `apply_heuristics_string`: rule 1 merges a
⟨consonant, 17CB/17CE/17CF⟩ or ⟨consonant, 17B7, 17CD⟩ fragment with the
previous output token; rule 2 merges a ⟨consonant, 17D0⟩ fragment with the
next input token; known words are copied unchanged. -/
def heurGo (d : Dictionary) : List (List CP) → List (List CP) → List (List CP)
  | [], merged => merged
  | curr :: rest, merged =>
    if d.contains curr then heurGo d rest (merged ++ [curr])
    else
      let c0 := curr.getD 0 0x20
      let c1 := curr.getD 1 0x20
      let c2 := curr.getD 2 0x20
      if !merged.isEmpty && chars3Len curr = 2 && is_consonant c0 &&
          (c1 = 0x17CB || c1 = 0x17CE || c1 = 0x17CF) then
        heurGo d rest (merged.dropLast ++ [merged.getLastD [] ++ curr])
      else if !merged.isEmpty && chars3Len curr = 3 && is_consonant c0 &&
          c1 = 0x17B7 && c2 = 0x17CD then
        heurGo d rest (merged.dropLast ++ [merged.getLastD [] ++ curr])
      else
        match rest with
        | nextSeg :: rest2 =>
          if chars2Len curr = 2 && is_consonant c0 && c1 = 0x17D0 then
            heurGo d rest2 (merged ++ [curr ++ nextSeg])
          else heurGo d (nextSeg :: rest2) (merged ++ [curr])
        | [] => heurGo d [] (merged ++ [curr])
  termination_by l _ => l.length

/-- `apply_heuristics_string` from heuristics.rs. -/
def apply_heuristics_string (d : Dictionary) (segments : List (List CP)) :
    List (List CP) :=
  heurGo d segments []

/-! ## heuristics.rs: pass 3 (coalesce unknown runs) -/

/-- The loop of `post_process_unknowns_string`, carried over the remaining
tokens with the emitted list and the unknown buffer. -/
def unknownsGo (d : Dictionary) :
    List (List CP) → List (List CP) → List (List CP) → List (List CP)
  | [], finalSegs, buffer =>
    if !buffer.isEmpty then finalSegs ++ [buffer.flatten] else finalSegs
  | seg :: rest, finalSegs, buffer =>
    let firstChar := seg.headD 0x20
    let count := seg.length
    let isKnown := is_digit firstChar || d.contains seg ||
      (count = 1 && is_valid_single_word firstChar) ||
      (count = 1 && is_separator firstChar) ||
      (seg.contains 0x2E && decide (2 ≤ count))
    if isKnown then
      let finalSegs2 := if !buffer.isEmpty then finalSegs ++ [buffer.flatten] else finalSegs
      unknownsGo d rest (finalSegs2 ++ [seg]) []
    else unknownsGo d rest finalSegs (buffer ++ [seg])

/-- `post_process_unknowns_string` from heuristics.rs. -/
def post_process_unknowns_string (d : Dictionary) (segments : List (List CP)) :
    List (List CP) :=
  unknownsGo d segments [] []

/-! ## segmenter.rs: the public API -/

/-- `segment_with_buffers`: decompose, run the DP, backtrack, and apply
the three post-processing passes. -/
def segment_with_buffers (d : Dictionary) (cps : List CP) : List (List CP) :=
  if cps.length = 0 then []
  else
    let st := dpLoop d cps
    let segs := (runBacktrack st.parent cps).1
    post_process_unknowns_string d
      (apply_heuristics_string d (snap_invalid_single_consonants d segs))

/-- `segment_raw`: the empty-input early return. -/
def segment_raw (d : Dictionary) (text : List CP) : List (List CP) :=
  if text = [] then [] else segment_with_buffers d text

/-- `KhmerSegmenter::segment`: strip U+200B if present, then segment. -/
def KhmerSegmenter.segment (d : Dictionary) (text : List CP) : List (List CP) :=
  if !text.contains 0x200B then segment_raw d text
  else segment_raw d (text.filter (fun c => decide (c ≠ 0x200B)))

/-! ## Specification-side definitions used by the theorems -/

/-- Position `k` carries a finite DP cost. -/
def finiteAt (st : DPState) (k : ℕ) : Prop :=
  (st.cost.getD k none).isSome = true

/-- The structural invariant of the DP arrays for an input of `n`
codepoints: correct lengths; every set parent pointer points strictly
backwards, stays within `0..n`, and originates at a finite-cost position;
and every finite-cost position `k ≥ 1` has a parent pointer. -/
structure DPInv (n : ℕ) (st : DPState) : Prop where
  clen : st.cost.length = n + 1
  plen : st.parent.length = n + 1
  psrc : ∀ k p, st.parent.getD k none = some p →
    p < k ∧ k ≤ n ∧ (st.cost.getD p none).isSome = true
  pfin : ∀ k, 1 ≤ k → k ≤ n → (st.cost.getD k none).isSome = true →
    (st.parent.getD k none).isSome = true

/-- One admissible DP relaxation out of position `i`: some strictly later
position `j ≤ n` is relaxed. -/
def relStep (n i : ℕ) (s s' : DPState) : Prop :=
  ∃ j q, i < j ∧ j ≤ n ∧ s' = relax s i j q

/-- A finite sequence of admissible relaxations out of position `i`. -/
def chainRel (n i : ℕ) : DPState → DPState → Prop :=
  Relation.ReflTransGen (relStep n i)

/-- The DP state after the first `k` iterations of the main loop. -/
def stAt (d : Dictionary) (cps : List CP) (k : ℕ) : DPState :=
  (List.range k).foldl (dpStep d cps) (initState cps.length)

/-- Claim-side predicate (spec §4.3 pass 1): a token is *invalid-single*
iff it has exactly one codepoint which is not whitelisted, not a digit,
not a separator, and the token is not a dictionary word. -/
def invalidSingleTok (d : Dictionary) (s : List CP) : Bool :=
  s.length = 1 && !is_valid_single_word (get_first_char s) &&
  !d.contains s && !is_digit (get_first_char s) && !is_separator (get_first_char s)

/-- Claim-side predicate: a neighbouring token counts as separator context
iff it begins with a separator codepoint or equals `" "` or U+200B. -/
def sepContextTok (t : List CP) : Bool :=
  is_separator (get_first_char t) || t = [0x20] || t = [0x200B]

/-- Claim-side predicate: the previous context of the current token is a
separator or a list boundary (output empty at input position 0). -/
def prevSepCtx (out : List (List CP)) (j : ℕ) : Bool :=
  if !out.isEmpty then sepContextTok (out.getLastD []) else decide (j = 0)

/-- Claim-side predicate: the next context of the current token is a
separator or the end of the input list. -/
def nextSepCtx (rest : List (List CP)) : Bool :=
  match rest with
  | nextSeg :: _ => sepContextTok nextSeg
  | [] => true

/-! ## Basic lemmas about `relax` -/

theorem relax_cases (st : DPState) (i j : ℕ) (q : ℚ) :
    (ltInf q (st.cost.getD j none) = false ∧ relax st i j q = st) ∨
    (ltInf q (st.cost.getD j none) = true ∧
      relax st i j q = ⟨st.cost.set j (some q), st.parent.set j (some i)⟩) := by
  by_cases h : ltInf q (st.cost.getD j none) = true
  · refine Or.inr ⟨h, ?_⟩
    unfold relax
    rw [if_pos h]
  · refine Or.inl ⟨by simpa using h, ?_⟩
    unfold relax
    rw [if_neg h]

theorem relax_cost_getD_ne {st : DPState} {i j : ℕ} {q : ℚ} {k : ℕ} (h : k ≠ j) :
    (relax st i j q).cost.getD k none = st.cost.getD k none := by
  rcases relax_cases st i j q with ⟨_, he⟩ | ⟨_, he⟩ <;> rw [he]
  simp [List.getD_eq_getElem?_getD, List.getElem?_set_ne (Ne.symm h)]

theorem relax_parent_getD_ne {st : DPState} {i j : ℕ} {q : ℚ} {k : ℕ} (h : k ≠ j) :
    (relax st i j q).parent.getD k none = st.parent.getD k none := by
  rcases relax_cases st i j q with ⟨_, he⟩ | ⟨_, he⟩ <;> rw [he]
  simp [List.getD_eq_getElem?_getD, List.getElem?_set_ne (Ne.symm h)]

theorem relax_cost_length (st : DPState) (i j : ℕ) (q : ℚ) :
    (relax st i j q).cost.length = st.cost.length := by
  rcases relax_cases st i j q with ⟨_, he⟩ | ⟨_, he⟩ <;> rw [he]
  simp

theorem relax_parent_length (st : DPState) (i j : ℕ) (q : ℚ) :
    (relax st i j q).parent.length = st.parent.length := by
  rcases relax_cases st i j q with ⟨_, he⟩ | ⟨_, he⟩ <;> rw [he]
  simp

theorem relax_finite_mono {st : DPState} {i j : ℕ} {q : ℚ} {k : ℕ}
    (h : (st.cost.getD k none).isSome = true) :
    ((relax st i j q).cost.getD k none).isSome = true := by
  rcases relax_cases st i j q with ⟨_, he⟩ | ⟨_, he⟩ <;> rw [he]
  · exact h
  · by_cases hk : k = j
    · subst hk
      simp only [List.getD_eq_getElem?_getD, List.getElem?_set_self'] at h ⊢
      cases hx : st.cost[k]? with
      | none => rw [hx] at h; simp at h
      | some x => simp [hx]
    · rwa [List.getD_eq_getElem?_getD, List.getElem?_set_ne (Ne.symm hk),
        ← List.getD_eq_getElem?_getD]

theorem relax_finite_target {st : DPState} {i j : ℕ} {q : ℚ}
    (h : j < st.cost.length) :
    ((relax st i j q).cost.getD j none).isSome = true := by
  rcases relax_cases st i j q with ⟨hlt, he⟩ | ⟨_, he⟩ <;> rw [he]
  · cases hx : st.cost.getD j none with
    | none => rw [hx] at hlt; simp [ltInf] at hlt
    | some x => simp [hx]
  · simp [List.getD_eq_getElem?_getD, List.getElem?_set_self h]

theorem relax_parent_some {st : DPState} {i j : ℕ} {q : ℚ} {k p : ℕ}
    (h : (relax st i j q).parent.getD k none = some p) :
    st.parent.getD k none = some p ∨ (k = j ∧ p = i) := by
  rcases relax_cases st i j q with ⟨_, he⟩ | ⟨_, he⟩ <;> rw [he] at h
  · exact Or.inl h
  · by_cases hk : k = j
    · subst hk
      refine Or.inr ⟨rfl, ?_⟩
      simp only [List.getD_eq_getElem?_getD, List.getElem?_set_self'] at h
      cases hx : st.parent[k]? with
      | none => rw [hx] at h; simp at h
      | some x => rw [hx] at h; simp at h; omega
    · rw [List.getD_eq_getElem?_getD, List.getElem?_set_ne (Ne.symm hk),
        ← List.getD_eq_getElem?_getD] at h
      exact Or.inl h

theorem relax_noop {st : DPState} {i j : ℕ} {cur q : ℚ}
    (h : st.cost.getD j none = some cur) (hq : ¬ q < cur) :
    relax st i j q = st := by
  unfold relax ltInf
  rw [h]
  simp [hq]

/-! ## Invariant preservation -/

theorem inv_relax {n : ℕ} {st : DPState} {i j : ℕ} {q : ℚ} (inv : DPInv n st)
    (hfin : (st.cost.getD i none).isSome = true) (hij : i < j) (hjn : j ≤ n) :
    DPInv n (relax st i j q) := by
  rcases relax_cases st i j q with ⟨_, he⟩ | ⟨_, he⟩
  · rw [he]; exact inv
  · have hjlen : j < st.cost.length := by rw [inv.clen]; omega
    have hjplen : j < st.parent.length := by rw [inv.plen]; omega
    rw [he]
    refine ⟨?_, ?_, ?_, ?_⟩
    · simpa using inv.clen
    · simpa using inv.plen
    · intro k p hp
      by_cases hk : k = j
      · have hpi : p = i := by
          rw [hk, List.getD_eq_getElem?_getD, List.getElem?_set_self hjplen] at hp
          simpa using hp.symm
        refine ⟨by omega, by omega, ?_⟩
        rw [hpi, List.getD_eq_getElem?_getD, List.getElem?_set_ne (by omega : j ≠ i),
          ← List.getD_eq_getElem?_getD]
        exact hfin
      · rw [List.getD_eq_getElem?_getD, List.getElem?_set_ne (Ne.symm hk),
          ← List.getD_eq_getElem?_getD] at hp
        obtain ⟨h1, h2, h3⟩ := inv.psrc k p hp
        refine ⟨h1, h2, ?_⟩
        by_cases hpj : p = j
        · subst hpj
          simp [List.getD_eq_getElem?_getD, List.getElem?_set_self hjlen]
        · rw [List.getD_eq_getElem?_getD, List.getElem?_set_ne (Ne.symm hpj),
            ← List.getD_eq_getElem?_getD]
          exact h3
    · intro k h1 h2 hf
      by_cases hk : k = j
      · subst hk
        simp [List.getD_eq_getElem?_getD, List.getElem?_set_self hjplen]
      · rw [List.getD_eq_getElem?_getD, List.getElem?_set_ne (Ne.symm hk),
          ← List.getD_eq_getElem?_getD] at hf ⊢
        exact inv.pfin k h1 h2 hf

/-! ## Chains of relaxations -/

theorem chainRel.single {n i : ℕ} {st : DPState} {j : ℕ} {q : ℚ}
    (hij : i < j) (hjn : j ≤ n) : chainRel n i st (relax st i j q) :=
  Relation.ReflTransGen.single ⟨j, q, hij, hjn, rfl⟩

theorem chain_cost_low {n i : ℕ} {st st' : DPState}
    (h : chainRel n i st st') : ∀ k, k ≤ i →
    st'.cost.getD k none = st.cost.getD k none := by
  induction h with
  | refl => intro k _; rfl
  | tail _ hbc ih =>
    intro k hk
    obtain ⟨j, q, hij, _, rfl⟩ := hbc
    rw [relax_cost_getD_ne (by omega : k ≠ j)]
    exact ih k hk

theorem chain_mono {n i : ℕ} {st st' : DPState}
    (h : chainRel n i st st') {k : ℕ}
    (hf : (st.cost.getD k none).isSome = true) :
    (st'.cost.getD k none).isSome = true := by
  induction h with
  | refl => exact hf
  | tail _ hbc ih =>
    obtain ⟨j, q, _, _, rfl⟩ := hbc
    exact relax_finite_mono ih

theorem chain_inv {n i : ℕ} {st st' : DPState} (inv : DPInv n st)
    (hfin : (st.cost.getD i none).isSome = true)
    (h : chainRel n i st st') : DPInv n st' := by
  induction h with
  | refl => exact inv
  | tail hab hbc ih =>
    obtain ⟨j, q, hij, hjn, rfl⟩ := hbc
    refine inv_relax ih ?_ hij hjn
    rw [chain_cost_low hab i le_rfl]
    exact hfin

theorem chain_cost_length {n i : ℕ} {st st' : DPState}
    (h : chainRel n i st st') : st'.cost.length = st.cost.length := by
  induction h with
  | refl => rfl
  | tail _ hbc ih =>
    obtain ⟨j, q, _, _, rfl⟩ := hbc
    rw [relax_cost_length]
    exact ih

/-! ## Bounds for the length helpers -/

theorem clusterLoop_le : ∀ l : List CP, clusterLoop l ≤ l.length
  | [] => by simp [clusterLoop]
  | [c] => by
    simp only [clusterLoop]
    split
    · simp
    · split <;> simp
  | c :: c2 :: rest2 => by
    simp only [clusterLoop]
    split
    · split
      · have := clusterLoop_le rest2
        simp only [List.length_cons]
        omega
      · simp
    · split
      · have := clusterLoop_le (c2 :: rest2)
        simp only [List.length_cons] at this ⊢
        omega
      · simp

theorem cluster_pos {cps : List CP} {start : ℕ} (h : start < cps.length) :
    0 < get_khmer_cluster_length_cps cps start := by
  unfold get_khmer_cluster_length_cps
  rw [if_neg (by omega)]
  split <;> omega

theorem cluster_le {cps : List CP} {start : ℕ} (h : start < cps.length) :
    start + get_khmer_cluster_length_cps cps start ≤ cps.length := by
  unfold get_khmer_cluster_length_cps
  rw [if_neg (by omega)]
  split
  · omega
  · have h1 := clusterLoop_le (cps.drop (start + 1))
    rw [List.length_drop] at h1
    omega

theorem khmer_lt_length {cps : List CP} {i : ℕ}
    (h : is_khmer_char (cps.getD i 0) = true) : i < cps.length := by
  by_contra hge
  push_neg at hge
  rw [List.getD_eq_default _ _ (by omega)] at h
  simp [is_khmer_char] at h

/-! ## Each transition produces an admissible chain -/

theorem repairRelax_chain {d : Dictionary} {cps : List CP} {i : ℕ} {cur : ℚ}
    {st : DPState} : chainRel cps.length i st (repairRelax d cps i cur st) := by
  unfold repairRelax
  split
  · exact chainRel.single (by omega) (by omega)
  · exact Relation.ReflTransGen.refl

theorem numberRelax_chain {cps : List CP} {i : ℕ} {cur : ℚ} {st : DPState}
    (h : st.cost.getD i none = some cur) :
    chainRel cps.length i st (numberRelax cps i cur st) := by
  unfold numberRelax
  split
  · split
    · rename_i hle
      by_cases hlen : get_number_length_cps cps i = 0
      · rw [hlen] at hle ⊢
        have hnoop : relax st i (i + 0) (cur + 1) = st := by
          rw [Nat.add_zero]
          exact relax_noop h (by linarith)
        rw [hnoop]
        exact Relation.ReflTransGen.refl
      · exact chainRel.single (by omega) hle
    · exact Relation.ReflTransGen.refl
  · exact Relation.ReflTransGen.refl

theorem sepRelax_chain {cps : List CP} {i : ℕ} {cur : ℚ} {st : DPState} :
    chainRel cps.length i st (sepRelax cps i cur st) := by
  unfold sepRelax
  split
  · split
    · exact chainRel.single (by omega) (by omega)
    · exact Relation.ReflTransGen.refl
  · exact Relation.ReflTransGen.refl

theorem acronymRelax_chain {cps : List CP} {i : ℕ} {cur : ℚ} {st : DPState}
    (h : st.cost.getD i none = some cur) :
    chainRel cps.length i st (acronymRelax cps i cur st) := by
  unfold acronymRelax
  split
  · split
    · rename_i hle
      by_cases hlen : get_acronym_length_cps cps i = 0
      · rw [hlen] at hle ⊢
        have hnoop : relax st i (i + 0) (cur + 1) = st := by
          rw [Nat.add_zero]
          exact relax_noop h (by linarith)
        rw [hnoop]
        exact Relation.ReflTransGen.refl
      · exact chainRel.single (by omega) hle
    · exact Relation.ReflTransGen.refl
  · exact Relation.ReflTransGen.refl

theorem dictGo_chain {n i : ℕ} {cur : ℚ} (d : Dictionary) (cps : List CP) :
    ∀ (js : List ℕ) (st : DPState), (∀ j ∈ js, i < j ∧ j ≤ n) →
    chainRel n i st (js.foldl (fun s j =>
      match d.lookup_codepoints cps i j with
      | some w => relax s i j (cur + w)
      | none => s) st)
  | [], st, _ => Relation.ReflTransGen.refl
  | j :: rest, st, h => by
    simp only [List.foldl_cons]
    have hj := h j (by simp)
    have hstep : chainRel n i st (match d.lookup_codepoints cps i j with
        | some w => relax st i j (cur + w)
        | none => st) := by
      cases d.lookup_codepoints cps i j with
      | some w => exact chainRel.single hj.1 hj.2
      | none => exact Relation.ReflTransGen.refl
    exact hstep.trans (dictGo_chain d cps rest _ (fun j' hj' => h j' (by simp [hj'])))

theorem dictRelax_chain {d : Dictionary} {cps : List CP} {i : ℕ} {cur : ℚ}
    {st : DPState} : chainRel cps.length i st (dictRelax d cps i cur st) := by
  unfold dictRelax
  apply dictGo_chain
  intro j hj
  rw [List.mem_range'] at hj
  obtain ⟨k, hk, rfl⟩ := hj
  have hmin : min (i + d.max_word_length) cps.length ≤ cps.length :=
    Nat.min_le_right _ _
  omega

theorem fallbackRelax_chain {d : Dictionary} {cps : List CP} {i : ℕ} {cur : ℚ}
    {st : DPState} : chainRel cps.length i st (fallbackRelax d cps i cur st) := by
  unfold fallbackRelax
  split
  · rename_i hk
    have hi := khmer_lt_length hk
    split
    · exact chainRel.single (by have := cluster_pos hi; omega) (by omega)
    · exact Relation.ReflTransGen.refl
  · split
    · exact chainRel.single (by omega) (by omega)
    · exact Relation.ReflTransGen.refl

theorem dpStep_chain (d : Dictionary) (cps : List CP) (st : DPState) (i : ℕ) :
    chainRel cps.length i st (dpStep d cps st i) := by
  unfold dpStep
  split
  · exact Relation.ReflTransGen.refl
  · rename_i cur heq
    split
    · exact repairRelax_chain
    · have c1 : chainRel cps.length i st (numberRelax cps i cur st) :=
        numberRelax_chain heq
      have c2 : chainRel cps.length i st
          (sepRelax cps i cur (numberRelax cps i cur st)) :=
        c1.trans sepRelax_chain
      have c3 : chainRel cps.length i st
          (acronymRelax cps i cur (sepRelax cps i cur (numberRelax cps i cur st))) := by
        refine c2.trans (acronymRelax_chain ?_)
        rw [chain_cost_low c2 i le_rfl]
        exact heq
      have c4 := c3.trans (@dictRelax_chain d cps i cur _)
      exact c4.trans fallbackRelax_chain

/-! ## Derived facts about one DP iteration -/

theorem dpStep_eq_of_none {d : Dictionary} {cps : List CP} {st : DPState} {i : ℕ}
    (h : st.cost.getD i none = none) : dpStep d cps st i = st := by
  unfold dpStep
  rw [h]

theorem dpStep_inv {d : Dictionary} {cps : List CP} {st : DPState} {i : ℕ}
    (inv : DPInv cps.length st) : DPInv cps.length (dpStep d cps st i) := by
  cases h : st.cost.getD i none with
  | none => rw [dpStep_eq_of_none h]; exact inv
  | some cur => exact chain_inv inv (by rw [h]; rfl) (dpStep_chain d cps st i)

theorem dpStep_mono {d : Dictionary} {cps : List CP} {st : DPState} {i k : ℕ}
    (hf : (st.cost.getD k none).isSome = true) :
    ((dpStep d cps st i).cost.getD k none).isSome = true :=
  chain_mono (dpStep_chain d cps st i) hf

theorem dpStep_low {d : Dictionary} {cps : List CP} {st : DPState} {i k : ℕ}
    (hk : k ≤ i) :
    (dpStep d cps st i).cost.getD k none = st.cost.getD k none :=
  chain_cost_low (dpStep_chain d cps st i) k hk

theorem dpStep_progress {d : Dictionary} {cps : List CP} {st : DPState}
    {i : ℕ} {cur : ℚ} (inv : DPInv cps.length st)
    (h : st.cost.getD i none = some cur) (hi : i < cps.length) :
    ∃ j, i < j ∧ j ≤ cps.length ∧
      ((dpStep d cps st i).cost.getD j none).isSome = true := by
  unfold dpStep
  split
  · rename_i heq
    rw [h] at heq
    simp at heq
  · rename_i x heq
    have hx : x = cur := by
      rw [h] at heq
      exact (Option.some.inj heq).symm
    subst hx
    split
    · refine ⟨i + 1, by omega, by omega, ?_⟩
      unfold repairRelax
      rw [if_pos (by omega : i + 1 ≤ cps.length)]
      exact relax_finite_target (by rw [inv.clen]; omega)
    · have c1 := @numberRelax_chain cps i x st heq
      have c2 := c1.trans (@sepRelax_chain cps i x _)
      have c3 := c2.trans
        (acronymRelax_chain (by rw [chain_cost_low c2 i le_rfl]; exact heq))
      have hchain := c3.trans (@dictRelax_chain d cps i x _)
      have hlen4 : (dictRelax d cps i x (acronymRelax cps i x
          (sepRelax cps i x (numberRelax cps i x st)))).cost.length =
          cps.length + 1 := by
        rw [chain_cost_length hchain, inv.clen]
      by_cases hk : is_khmer_char (cps.getD i 0) = true
      · have hcp := cluster_pos hi
        have hcl := cluster_le hi
        refine ⟨i + get_khmer_cluster_length_cps cps i, by omega, by omega, ?_⟩
        unfold fallbackRelax
        rw [if_pos hk, if_pos (by omega)]
        exact relax_finite_target (by rw [hlen4]; omega)
      · refine ⟨i + 1, by omega, by omega, ?_⟩
        unfold fallbackRelax
        rw [if_neg hk, if_pos (by omega : i + 1 ≤ cps.length)]
        exact relax_finite_target (by rw [hlen4]; omega)

/-! ## The main loop -/

theorem stAt_zero (d : Dictionary) (cps : List CP) :
    stAt d cps 0 = initState cps.length := by
  simp [stAt]

theorem stAt_succ (d : Dictionary) (cps : List CP) (k : ℕ) :
    stAt d cps (k + 1) = dpStep d cps (stAt d cps k) k := by
  unfold stAt
  rw [List.range_succ, List.foldl_append]
  rfl

theorem initState_cost_getD (n k : ℕ) :
    (initState n).cost.getD k none = if k = 0 then some 0 else none := by
  unfold initState
  cases k with
  | zero => simp
  | succ k =>
    simp only [List.getD_eq_getElem?_getD, List.getElem?_cons_succ,
      List.getElem?_replicate]
    split <;> simp

theorem initState_parent_getD (n k : ℕ) :
    (initState n).parent.getD k none = none := by
  simp only [initState, List.getD_eq_getElem?_getD, List.getElem?_replicate]
  split <;> simp

theorem initState_inv (n : ℕ) : DPInv n (initState n) := by
  refine ⟨by simp [initState], by simp [initState], ?_, ?_⟩
  · intro k p hp
    rw [initState_parent_getD] at hp
    exact absurd hp (by simp)
  · intro k h1 h2 hf
    rw [initState_cost_getD, if_neg (by omega)] at hf
    simp at hf

theorem stAt_inv (d : Dictionary) (cps : List CP) (k : ℕ) :
    DPInv cps.length (stAt d cps k) := by
  induction k with
  | zero => rw [stAt_zero]; exact initState_inv _
  | succ k ih => rw [stAt_succ]; exact dpStep_inv ih

theorem stAt_mono (d : Dictionary) (cps : List CP) {k m j : ℕ} (hkm : k ≤ m)
    (hf : ((stAt d cps k).cost.getD j none).isSome = true) :
    ((stAt d cps m).cost.getD j none).isSome = true := by
  induction m with
  | zero => cases Nat.le_zero.mp hkm; exact hf
  | succ m ih =>
    rcases Nat.lt_or_ge k (m + 1) with hlt | hge
    · rw [stAt_succ]
      exact dpStep_mono (ih (by omega))
    · have hk : k = m + 1 := by omega
      subst hk
      exact hf

theorem stAt_frozen (d : Dictionary) (cps : List CP) {k m j : ℕ} (hkm : k ≤ m)
    (hj : j ≤ k) :
    (stAt d cps m).cost.getD j none = (stAt d cps k).cost.getD j none := by
  induction m with
  | zero => cases Nat.le_zero.mp hkm; rfl
  | succ m ih =>
    rcases Nat.lt_or_ge k (m + 1) with hlt | hge
    · rw [stAt_succ, dpStep_low (by omega : j ≤ m)]
      exact ih (by omega)
    · have hk : k = m + 1 := by omega
      subst hk
      rfl

theorem stAt_final_finite (d : Dictionary) (cps : List CP) :
    ((stAt d cps cps.length).cost.getD cps.length none).isSome = true := by
  suffices h : ∀ m k, k ≤ cps.length → cps.length - k ≤ m →
      ((stAt d cps cps.length).cost.getD k none).isSome = true →
      ((stAt d cps cps.length).cost.getD cps.length none).isSome = true by
    apply h cps.length 0 (by omega) (by omega)
    rw [stAt_frozen d cps (by omega : 0 ≤ cps.length) le_rfl, stAt_zero,
      initState_cost_getD]
    simp
  intro m
  induction m with
  | zero =>
    intro k hk hmk hf
    have hkn : k = cps.length := by omega
    subst hkn
    exact hf
  | succ m ih =>
    intro k hk hmk hf
    rcases Nat.eq_or_lt_of_le hk with heq | hlt
    · subst heq
      exact hf
    · rw [stAt_frozen d cps hk le_rfl] at hf
      obtain ⟨cur, hcur⟩ := Option.isSome_iff_exists.mp hf
      obtain ⟨j, hj1, hj2, hj3⟩ := dpStep_progress (stAt_inv d cps k) hcur hlt
      rw [← stAt_succ] at hj3
      exact ih j hj2 (by omega) (stAt_mono d cps (by omega : k + 1 ≤ cps.length) hj3)

/-! ## Backtrack correctness -/

theorem take_patch {cps : List CP} {p curr : ℕ} (h : p ≤ curr) :
    cps.take p ++ (cps.take curr).drop p = cps.take curr := by
  have ht : (cps.take curr).take p = cps.take p := by
    rw [List.take_take, min_eq_left h]
  rw [← ht]
  exact List.take_append_drop p (cps.take curr)

theorem backtrackGo_ok {n : ℕ} {st : DPState} {cps : List CP}
    (inv : DPInv n st) (hn : n = cps.length) :
    ∀ curr fuel acc, curr ≤ n → curr ≤ fuel →
    (st.cost.getD curr none).isSome = true →
    ∃ segs, backtrackGo st.parent cps fuel curr acc = (acc ++ segs, false) ∧
      segs.reverse.flatten = cps.take curr ∧ ∀ s ∈ segs, s ≠ [] := by
  intro curr
  induction curr using Nat.strong_induction_on with
  | _ curr ih =>
    intro fuel acc hcn hcf hfin
    rcases Nat.eq_zero_or_pos curr with h0 | hpos
    · subst h0
      cases fuel with
      | zero => exact ⟨[], by simp [backtrackGo], by simp, by simp⟩
      | succ f => exact ⟨[], by simp [backtrackGo], by simp, by simp⟩
    · obtain ⟨f, rfl⟩ : ∃ f, fuel = f + 1 := ⟨fuel - 1, by omega⟩
      have hpar : (st.parent.getD curr none).isSome = true :=
        inv.pfin curr (by omega) hcn hfin
      obtain ⟨p, hp⟩ := Option.isSome_iff_exists.mp hpar
      obtain ⟨hplt, _, hpfin⟩ := inv.psrc curr p hp
      have hstep : backtrackGo st.parent cps (f + 1) curr acc =
          backtrackGo st.parent cps f p (acc ++ [(cps.take curr).drop p]) := by
        show (if 0 < curr then
            match st.parent.getD curr none with
            | none => (acc, true)
            | some p' => backtrackGo st.parent cps f p'
                (acc ++ [(cps.take curr).drop p'])
          else (acc, false)) = _
        rw [if_pos hpos, hp]
      obtain ⟨segs, h1, h2, h3⟩ := ih p hplt f (acc ++ [(cps.take curr).drop p])
        (by omega) (by omega) hpfin
      refine ⟨[(cps.take curr).drop p] ++ segs, ?_, ?_, ?_⟩
      · rw [hstep, h1, List.append_assoc]
      · rw [List.reverse_append, List.flatten_append, h2]
        simp only [List.reverse_cons, List.reverse_nil, List.nil_append,
          List.flatten_cons, List.flatten_nil, List.append_nil]
        exact take_patch (by omega)
      · intro s hs
        rcases List.mem_append.mp hs with hs1 | hs2
        · have hseq : s = (cps.take curr).drop p := by simpa using hs1
          subst hseq
          have hlen : ((cps.take curr).drop p).length = curr - p := by
            rw [List.length_drop, List.length_take]
            omega
          intro hcon
          rw [hcon] at hlen
          simp at hlen
          omega
        · exact h3 s hs2

theorem runBacktrack_spec (d : Dictionary) (cps : List CP) :
    (runBacktrack (dpLoop d cps).parent cps).1.flatten = cps ∧
    (runBacktrack (dpLoop d cps).parent cps).2 = false ∧
    ∀ s ∈ (runBacktrack (dpLoop d cps).parent cps).1, s ≠ [] := by
  have hdp : dpLoop d cps = stAt d cps cps.length := rfl
  obtain ⟨segs, h1, h2, h3⟩ := backtrackGo_ok (stAt_inv d cps cps.length) rfl
    cps.length cps.length [] le_rfl le_rfl (stAt_final_finite d cps)
  unfold runBacktrack
  rw [hdp, h1]
  simp only [List.nil_append]
  refine ⟨?_, by trivial, ?_⟩
  · rw [h2, List.take_length]
  · intro s hs
    exact h3 s (List.mem_reverse.mp hs)

/-! ## Concatenation preservation of the post-processing passes -/

theorem flatten_dropLast_getLastD (out : List (List CP)) :
    out.dropLast.flatten ++ out.getLastD [] = out.flatten := by
  rcases List.eq_nil_or_concat out with h0 | ⟨L, b, hLb⟩
  · subst h0
    simp
  · subst hLb
    simp [List.concat_eq_append, List.flatten_concat, List.getLastD_eq_getLast?,
      List.getLast?_concat]

theorem snapGo_flatten (d : Dictionary) :
    ∀ (l : List (List CP)) (j : ℕ) (out : List (List CP)),
    (snapGo d l j out).flatten = out.flatten ++ l.flatten
  | [], j, out => by simp [snapGo]
  | seg :: rest, j, out => by
    have key : ∀ X : List (List CP), X.flatten = out.flatten ++ seg →
        (snapGo d rest (j + 1) X).flatten = out.flatten ++ (seg :: rest).flatten := by
      intro X hX
      rw [snapGo_flatten d rest (j + 1) X, hX]
      simp
    have happ : (out ++ [seg]).flatten = out.flatten ++ seg := by simp
    have hmerge : (out.dropLast ++ [out.getLastD [] ++ seg]).flatten =
        out.flatten ++ seg := by
      simp only [List.flatten_append, List.flatten_cons, List.flatten_nil,
        List.append_nil]
      rw [← List.append_assoc, flatten_dropLast_getLastD out]
    simp only [snapGo]
    repeat' split
    all_goals first
      | exact key _ happ
      | exact key _ hmerge

theorem heurGo_flatten (d : Dictionary) (l merged : List (List CP)) :
    (heurGo d l merged).flatten = merged.flatten ++ l.flatten := by
  induction l, merged using heurGo.induct d with
  | case1 merged => simp [heurGo]
  | case2 curr rest merged h ih =>
    rw [heurGo, if_pos h, ih]
    simp
  | case3 curr rest merged h1 c0 c1 h2 ih =>
    rw [heurGo, if_neg h1]
    simp only []
    rw [if_pos h2, ih]
    simp only [List.flatten_append, List.flatten_cons, List.flatten_nil,
      List.append_nil]
    rw [← List.append_assoc, ← List.append_assoc,
      flatten_dropLast_getLastD merged]
  | case4 curr rest merged h1 c0 c1 c2 h2 h3 ih =>
    rw [heurGo, if_neg h1]
    simp only []
    rw [if_neg h2, if_pos h3, ih]
    simp only [List.flatten_append, List.flatten_cons, List.flatten_nil,
      List.append_nil]
    rw [← List.append_assoc, ← List.append_assoc,
      flatten_dropLast_getLastD merged]
  | case5 curr merged h1 c0 c1 c2 h2 h3 nextSeg rest2 h4 ih =>
    rw [heurGo, if_neg h1]
    simp only []
    rw [if_neg h2, if_neg h3, if_pos h4, ih]
    simp
  | case6 curr merged h1 c0 c1 c2 h2 h3 nextSeg rest2 h4 ih =>
    rw [heurGo, if_neg h1]
    simp only []
    rw [if_neg h2, if_neg h3, if_neg h4, ih]
    simp
  | case7 curr merged h1 c0 c1 c2 h2 h3 ih =>
    rw [heurGo, if_neg h1]
    simp only []
    rw [if_neg h2, if_neg h3, ih]
    simp

theorem unknownsGo_flatten (d : Dictionary) :
    ∀ (l finalSegs buffer : List (List CP)),
    (unknownsGo d l finalSegs buffer).flatten =
      finalSegs.flatten ++ buffer.flatten ++ l.flatten
  | [], finalSegs, buffer => by
    simp only [unknownsGo]
    split
    · simp
    · rename_i h
      have hb : buffer = [] := by simpa using h
      subst hb
      simp
  | seg :: rest, finalSegs, buffer => by
    simp only [unknownsGo]
    split
    · split
      · rw [unknownsGo_flatten d rest _ _]
        simp
      · rename_i h
        have hb : buffer = [] := by simpa using h
        subst hb
        rw [unknownsGo_flatten d rest _ _]
        simp
    · rw [unknownsGo_flatten d rest finalSegs (buffer ++ [seg])]
      simp

/-! ## No pass introduces an empty token -/

theorem flatten_ne_nil {buf : List (List CP)} (h : buf ≠ [])
    (hall : ∀ s ∈ buf, s ≠ []) : buf.flatten ≠ [] := by
  cases buf with
  | nil => exact absurd rfl h
  | cons b rest =>
    have hb : b ≠ [] := hall b (by simp)
    simp [List.append_eq_nil, hb]

theorem snapGo_ne (d : Dictionary) :
    ∀ (l : List (List CP)) (j : ℕ) (out : List (List CP)),
    (∀ s ∈ l, s ≠ []) → (∀ s ∈ out, s ≠ []) →
    ∀ s ∈ snapGo d l j out, s ≠ []
  | [], j, out => fun _ hout => by simpa [snapGo] using hout
  | seg :: rest, j, out => by
    intro hl hout
    have hseg : seg ≠ [] := hl seg (by simp)
    have hrest : ∀ s ∈ rest, s ≠ [] := fun s hs => hl s (by simp [hs])
    have hout1 : ∀ s ∈ out ++ [seg], s ≠ [] := by
      intro s hs
      rcases List.mem_append.mp hs with h' | h'
      · exact hout s h'
      · have : s = seg := by simpa using h'
        rw [this]; exact hseg
    have hout2 : ∀ s ∈ out.dropLast ++ [out.getLastD [] ++ seg], s ≠ [] := by
      intro s hs
      rcases List.mem_append.mp hs with h' | h'
      · exact hout s (List.dropLast_subset out h')
      · have : s = out.getLastD [] ++ seg := by simpa using h'
        rw [this]
        simp [List.append_eq_nil, hseg]
    have key1 := snapGo_ne d rest (j + 1) (out ++ [seg]) hrest hout1
    have key2 := snapGo_ne d rest (j + 1)
      (out.dropLast ++ [out.getLastD [] ++ seg]) hrest hout2
    simp only [snapGo]
    repeat' split
    all_goals first | exact key1 | exact key2

theorem heurGo_ne (d : Dictionary) (l merged : List (List CP)) :
    (∀ s ∈ l, s ≠ []) → (∀ s ∈ merged, s ≠ []) →
    ∀ s ∈ heurGo d l merged, s ≠ [] := by
  induction l, merged using heurGo.induct d with
  | case1 merged => intro _ hm; simpa [heurGo] using hm
  | case2 curr rest merged h ih =>
    intro hl hm
    rw [heurGo, if_pos h]
    refine ih (fun s hs => hl s (by simp [hs])) ?_
    intro s hs
    rcases List.mem_append.mp hs with h' | h'
    · exact hm s h'
    · have : s = curr := by simpa using h'
      rw [this]; exact hl curr (by simp)
  | case3 curr rest merged h1 c0 c1 h2 ih =>
    intro hl hm
    rw [heurGo, if_neg h1]
    simp only []
    rw [if_pos h2]
    refine ih (fun s hs => hl s (by simp [hs])) ?_
    intro s hs
    rcases List.mem_append.mp hs with h' | h'
    · exact hm s (List.dropLast_subset merged h')
    · have hcurr : curr ≠ [] := hl curr (by simp)
      have hse : s = merged.getLastD [] ++ curr := by simpa using h'
      rw [hse]
      simp [List.append_eq_nil, hcurr]
  | case4 curr rest merged h1 c0 c1 c2 h2 h3 ih =>
    intro hl hm
    rw [heurGo, if_neg h1]
    simp only []
    rw [if_neg h2, if_pos h3]
    refine ih (fun s hs => hl s (by simp [hs])) ?_
    intro s hs
    rcases List.mem_append.mp hs with h' | h'
    · exact hm s (List.dropLast_subset merged h')
    · have hcurr : curr ≠ [] := hl curr (by simp)
      have hse : s = merged.getLastD [] ++ curr := by simpa using h'
      rw [hse]
      simp [List.append_eq_nil, hcurr]
  | case5 curr merged h1 c0 c1 c2 h2 h3 nextSeg rest2 h4 ih =>
    intro hl hm
    rw [heurGo, if_neg h1]
    simp only []
    rw [if_neg h2, if_neg h3, if_pos h4]
    refine ih (fun s hs => hl s (by simp [hs])) ?_
    intro s hs
    rcases List.mem_append.mp hs with h' | h'
    · exact hm s h'
    · have hcurr : curr ≠ [] := hl curr (by simp)
      have hse : s = curr ++ nextSeg := by simpa using h'
      rw [hse]
      simp [List.append_eq_nil, hcurr]
  | case6 curr merged h1 c0 c1 c2 h2 h3 nextSeg rest2 h4 ih =>
    intro hl hm
    rw [heurGo, if_neg h1]
    simp only []
    rw [if_neg h2, if_neg h3, if_neg h4]
    refine ih (fun s hs => hl s (by simp [hs])) ?_
    intro s hs
    rcases List.mem_append.mp hs with h' | h'
    · exact hm s h'
    · have : s = curr := by simpa using h'
      rw [this]; exact hl curr (by simp)
  | case7 curr merged h1 c0 c1 c2 h2 h3 ih =>
    intro hl hm
    rw [heurGo, if_neg h1]
    simp only []
    rw [if_neg h2, if_neg h3]
    refine ih (by simp) ?_
    intro s hs
    rcases List.mem_append.mp hs with h' | h'
    · exact hm s h'
    · have : s = curr := by simpa using h'
      rw [this]; exact hl curr (by simp)

theorem unknownsGo_ne (d : Dictionary) :
    ∀ (l finalSegs buffer : List (List CP)),
    (∀ s ∈ l, s ≠ []) → (∀ s ∈ finalSegs, s ≠ []) → (∀ s ∈ buffer, s ≠ []) →
    ∀ s ∈ unknownsGo d l finalSegs buffer, s ≠ []
  | [], finalSegs, buffer => by
    intro _ hfin hbuf
    simp only [unknownsGo]
    split
    · rename_i h
      intro s hs
      rcases List.mem_append.mp hs with h' | h'
      · exact hfin s h'
      · have : s = buffer.flatten := by simpa using h'
        rw [this]
        exact flatten_ne_nil (by simpa using h) hbuf
    · exact hfin
  | seg :: rest, finalSegs, buffer => by
    intro hl hfin hbuf
    have hseg : seg ≠ [] := hl seg (by simp)
    have hrest : ∀ s ∈ rest, s ≠ [] := fun s hs => hl s (by simp [hs])
    simp only [unknownsGo]
    split
    · have hfin2 : ∀ s ∈ (if !buffer.isEmpty then
          finalSegs ++ [buffer.flatten] else finalSegs), s ≠ [] := by
        split
        · rename_i hb
          intro s hs
          rcases List.mem_append.mp hs with h'' | h''
          · exact hfin s h''
          · have hsf : s = buffer.flatten := by simpa using h''
            rw [hsf]
            exact flatten_ne_nil (by simpa using hb) hbuf
        · exact hfin
      refine unknownsGo_ne d rest _ [] hrest ?_ (by simp)
      intro s hs
      rcases List.mem_append.mp hs with h' | h'
      · exact hfin2 s h'
      · have : s = seg := by simpa using h'
        rw [this]; exact hseg
    · refine unknownsGo_ne d rest finalSegs (buffer ++ [seg]) hrest hfin ?_
      intro s hs
      rcases List.mem_append.mp hs with h' | h'
      · exact hbuf s h'
      · have : s = seg := by simpa using h'
        rw [this]; exact hseg

/-! ## Segment-level helpers -/

theorem segment_with_buffers_flatten (d : Dictionary) (cps : List CP) :
    (segment_with_buffers d cps).flatten = cps := by
  unfold segment_with_buffers
  split
  · rename_i h
    have h0 : cps = [] := List.eq_nil_of_length_eq_zero h
    subst h0
    simp
  · obtain ⟨h1, _, _⟩ := runBacktrack_spec d cps
    unfold post_process_unknowns_string apply_heuristics_string
      snap_invalid_single_consonants
    rw [unknownsGo_flatten, heurGo_flatten, snapGo_flatten]
    simpa using h1

theorem segment_with_buffers_ne (d : Dictionary) (cps : List CP) :
    ∀ s ∈ segment_with_buffers d cps, s ≠ [] := by
  unfold segment_with_buffers
  split
  · simp
  · obtain ⟨_, _, h3⟩ := runBacktrack_spec d cps
    unfold post_process_unknowns_string apply_heuristics_string
      snap_invalid_single_consonants
    exact unknownsGo_ne d _ [] []
      (heurGo_ne d _ [] (snapGo_ne d _ 0 [] h3 (by simp)) (by simp))
      (by simp) (by simp)

theorem segment_raw_flatten (d : Dictionary) (t : List CP) :
    (segment_raw d t).flatten = t := by
  unfold segment_raw
  split
  · rename_i h
    rw [h]
    simp
  · exact segment_with_buffers_flatten d t

theorem segment_raw_ne (d : Dictionary) (t : List CP) :
    ∀ s ∈ segment_raw d t, s ≠ [] := by
  unfold segment_raw
  split
  · simp
  · exact segment_with_buffers_ne d t

theorem contains_filter_200B (t : List CP) :
    (t.filter (fun c => decide (c ≠ 0x200B))).contains 0x200B = false := by
  simp [List.contains, List.elem_eq_mem, List.mem_filter]

theorem filter_200B_of_not_contains {t : List CP}
    (h : t.contains 0x200B = false) :
    t.filter (fun c => decide (c ≠ 0x200B)) = t := by
  rw [List.filter_eq_self]
  intro a ha
  have hmem : (0x200B : CP) ∉ t := by
    simpa [List.contains, List.elem_eq_mem] using h
  simp only [decide_eq_true_eq]
  rintro rfl
  exact hmem ha

/-- C1: for every dictionary and every input string `t`, the concatenation
in order of the tokens returned by `segment(t)` equals `t` with every
occurrence of U+200B removed — no character loss and no reordering,
through the DP backtrack and all three post-processing passes. -/
theorem segment_coverage (d : Dictionary) (t : List CP) :
    (KhmerSegmenter.segment d t).flatten =
      t.filter (fun c => decide (c ≠ 0x200B)) := by
  unfold KhmerSegmenter.segment
  split
  · rename_i h
    have hc : t.contains 0x200B = false := by simpa using h
    rw [segment_raw_flatten, filter_200B_of_not_contains hc]
  · rw [segment_raw_flatten]

/-- C4: for every non-empty input, after the DP main loop the cost at
position `n` is finite, and the backtrack walk from `n` via the parent
pointers reaches 0 without hitting the `parent = none` error break (the
error flag of the backtrack loop is `false`). -/
theorem dp_reaches_end_backtrack_safe (d : Dictionary) (cps : List CP)
    (h : cps ≠ []) :
    finiteAt (dpLoop d cps) cps.length ∧
    (runBacktrack (dpLoop d cps).parent cps).2 = false :=
  ⟨stAt_final_finite d cps, (runBacktrack_spec d cps).2.1⟩

/-- Witness for C4 at the concrete input "a" with the default-cost
dictionary built from an empty word list. -/
theorem dp_reaches_end_backtrack_safe_witness :
    ([0x61] : List CP) ≠ [] ∧
    (finiteAt (dpLoop (Dictionary.new (fun q => q) [] none) [0x61]) 1 ∧
     (runBacktrack (dpLoop (Dictionary.new (fun q => q) [] none) [0x61]).parent
        [0x61]).2 = false) :=
  ⟨by decide,
   dp_reaches_end_backtrack_safe (Dictionary.new (fun q => q) [] none) [0x61]
     (by decide)⟩

/-- C8: for every dictionary and input, every token returned by `segment`
has at least one codepoint (no empty tokens). -/
theorem segment_no_empty_tokens (d : Dictionary) (t : List CP) :
    (KhmerSegmenter.segment d t).all (fun s => !s.isEmpty) = true := by
  rw [List.all_eq_true]
  intro s hs
  have hne : s ≠ [] := by
    revert hs
    unfold KhmerSegmenter.segment
    split
    · exact fun hs => segment_raw_ne d t s hs
    · exact fun hs => segment_raw_ne d _ s hs
  simpa [List.isEmpty_iff] using hne

/-- C9: segmenting `t` gives exactly the same token list as segmenting
`t` with every U+200B already removed — stripping the zero-width space is
idempotent with respect to the whole pipeline. -/
theorem segment_strip_idempotent (d : Dictionary) (t : List CP) :
    KhmerSegmenter.segment d t =
      KhmerSegmenter.segment d (t.filter (fun c => decide (c ≠ 0x200B))) := by
  unfold KhmerSegmenter.segment
  have hnmem : (0x200B : CP) ∉ t.filter (fun c => decide (c ≠ 0x200B)) := by
    simpa [List.contains, List.elem_eq_mem] using contains_filter_200B t
  by_cases hc : t.contains 0x200B = true
  · have hmem : (0x200B : CP) ∈ t := by
      simpa [List.contains, List.elem_eq_mem] using hc
    rw [if_neg (by simp [hmem]), if_pos (by simp [hnmem])]
  · have hc' : t.contains 0x200B = false := by simpa using hc
    have hmem' : (0x200B : CP) ∉ t := by
      simpa [List.contains, List.elem_eq_mem] using hc'
    rw [if_pos (by simp [hmem']), if_pos (by simp [hnmem]),
      filter_200B_of_not_contains hc']

/-- C2 (evaluation at the failing input "$1"): `cps[0] = '$'` is a
currency symbol immediately followed by a digit, so the digit/currency
transition is entered; but `get_number_length_cps` returns 0 because
`cps[0]` is not a digit, so the transition proposes `len = 0`, relaxes
nothing (the candidate `cost[i] + 1.0` is never strictly smaller than
`cost[i]`), and the DP backtrack splits "$1" into ["$", "1"] instead of
covering the currency symbol and the digit run. -/
theorem currency_transition_noop_on_dollar_one :
    is_currency_symbol 0x24 = true ∧ is_digit 0x31 = true ∧
    get_number_length_cps [0x24, 0x31] 0 = 0 ∧
    numberRelax [0x24, 0x31] 0 0 (initState 2) = initState 2 ∧
    (runBacktrack (dpLoop (Dictionary.new (fun q => q) [] none)
        [0x24, 0x31]).parent [0x24, 0x31]).1 = [[0x24], [0x31]] := by
  refine ⟨rfl, rfl, by decide, ?_, ?_⟩
  · with_unfolding_all rfl
  · with_unfolding_all rfl

/-- C3: when `cost[i]` is finite and the repair gate triggers (the
previous codepoint is the coeng U+17D2, or the current codepoint is a
dependent vowel), the DP iteration at `i` consists of exactly the repair
relaxation of `cost[i+1]` with step cost `unknown_cost + 50.0`, and no
other position's cost or parent is touched (no digit, separator, acronym,
dictionary or cluster-fallback transition fires). -/
theorem repair_gate_only_transition (d : Dictionary) (cps : List CP)
    (st : DPState) (i : ℕ) (cur : ℚ)
    (hcost : st.cost.getD i none = some cur)
    (hforce : (0 < i ∧ cps.getD (i - 1) 0 = 0x17D2) ∨
      is_dependent_vowel (cps.getD i 0) = true)
    (hi : i < cps.length) :
    dpStep d cps st i = relax st i (i + 1) (cur + d.unknown_cost + 50) ∧
    ∀ k, k ≠ i + 1 →
      (dpStep d cps st i).cost.getD k none = st.cost.getD k none ∧
      (dpStep d cps st i).parent.getD k none = st.parent.getD k none := by
  have hcond : ((decide (0 < i) && is_coeng (cps.getD (i - 1) 0)) ||
      is_dependent_vowel (cps.getD i 0)) = true := by
    rcases hforce with ⟨h1, h2⟩ | h1
    · rw [Bool.or_eq_true]
      left
      rw [Bool.and_eq_true]
      refine ⟨by simpa using h1, ?_⟩
      rw [h2]
      decide
    · rw [Bool.or_eq_true]
      right
      exact h1
  have heq : dpStep d cps st i =
      relax st i (i + 1) (cur + d.unknown_cost + 50) := by
    unfold dpStep
    split
    · rename_i hnone
      rw [hcost] at hnone
      simp at hnone
    · rename_i x hx
      have hxc : x = cur := by
        rw [hcost] at hx
        exact (Option.some.inj hx).symm
      subst hxc
      rw [if_pos hcond]
      unfold repairRelax
      rw [if_pos (by omega : i + 1 ≤ cps.length)]
  refine ⟨heq, fun k hk => ?_⟩
  rw [heq]
  exact ⟨relax_cost_getD_ne hk, relax_parent_getD_ne hk⟩

/-- Witness for C3: the single dependent vowel U+17B6 at position 0 of a
one-codepoint input, with the default-cost dictionary. -/
theorem repair_gate_only_transition_witness :
    (initState 1).cost.getD 0 none = some 0 ∧
    is_dependent_vowel (([0x17B6] : List CP).getD 0 0) = true ∧
    (0 : ℕ) < 1 ∧
    (dpStep (Dictionary.new (fun q => q) [] none) [0x17B6] (initState 1) 0 =
        relax (initState 1) 0 (0 + 1)
          (0 + (Dictionary.new (fun q => q) [] none).unknown_cost + 50) ∧
     ∀ k, k ≠ 0 + 1 →
       (dpStep (Dictionary.new (fun q => q) [] none) [0x17B6]
           (initState 1) 0).cost.getD k none =
         (initState 1).cost.getD k none ∧
       (dpStep (Dictionary.new (fun q => q) [] none) [0x17B6]
           (initState 1) 0).parent.getD k none =
         (initState 1).parent.getD k none) :=
  ⟨by rfl, by decide, by decide,
   repair_gate_only_transition (Dictionary.new (fun q => q) [] none) [0x17B6]
     (initState 1) 0 0 (by rfl) (Or.inr (by decide)) (by decide)⟩

/-! ## Dictionary construction lemmas -/

theorem calculate_costs_none (nlg : ℚ → ℚ) (ws : List (List CP)) :
    calculate_costs nlg none ws = ([], 10, 20) := rfl

theorem calculate_costs_empty (nlg : ℚ → ℚ) (ws : List (List CP)) :
    calculate_costs nlg (some []) ws = ([], 10, 20) := by
  unfold calculate_costs
  norm_num

theorem buildGo_costs (wc : List (List CP × ℚ)) (dc : ℚ) :
    ∀ (ws : List (List CP)) (i : ℕ) (wm : List (List CP × ℕ)) (cv : List ℚ)
      (tr : TrieNode),
    (buildGo wc dc ws i wm cv tr).2.1 =
      cv ++ ws.map (fun w => (costFind wc w).getD dc)
  | [], i, wm, cv, tr => by simp [buildGo]
  | w :: rest, i, wm, cv, tr => by
    simp only [buildGo]
    rw [buildGo_costs wc dc rest (i + 1) _ _ _]
    simp

theorem wordsInsert_mem {wm : List (List CP × ℕ)} {w' : List CP} {i : ℕ}
    {w : List CP} {k : ℕ} (h : (w, k) ∈ wordsInsert wm w' i) :
    (w, k) ∈ wm ∨ w = w' := by
  unfold wordsInsert at h
  split at h
  · rcases List.mem_map.mp h with ⟨p, hp, hpe⟩
    by_cases hc : p.1 = w'
    · rw [if_pos hc] at hpe
      right
      have hw := congrArg Prod.fst hpe
      simpa using hw.symm
    · rw [if_neg hc] at hpe
      exact Or.inl (hpe ▸ hp)
  · rcases List.mem_append.mp h with h' | h'
    · exact Or.inl h'
    · right
      have : (w, k) = (w', i) := by simpa using h'
      exact congrArg Prod.fst this

theorem buildGo_words_mem (wc : List (List CP × ℚ)) (dc : ℚ) :
    ∀ (ws : List (List CP)) (i : ℕ) (wm : List (List CP × ℕ)) (cv : List ℚ)
      (tr : TrieNode) (w : List CP) (k : ℕ),
    (w, k) ∈ (buildGo wc dc ws i wm cv tr).1 → (w, k) ∈ wm ∨ w ∈ ws
  | [], i, wm, cv, tr, w, k => by
    intro h
    exact Or.inl (by simpa [buildGo] using h)
  | w' :: rest, i, wm, cv, tr, w, k => by
    intro h
    simp only [buildGo] at h
    rcases buildGo_words_mem wc dc rest (i + 1) _ _ _ w k h with h1 | h1
    · rcases wordsInsert_mem h1 with h2 | h2
      · exact Or.inl h2
      · exact Or.inr (by simp [h2])
    · exact Or.inr (by simp [h1])

theorem load_words_filtered {lines : List (List CP)} {w : List CP}
    (h : w ∈ (load_words lines).1) :
    w.contains 0x17D7 = false ∧ startsWithCoeng w = false := by
  unfold load_words at h
  simp only [] at h
  have h2 : w ∈ (loadWordsIngest lines).filter
      (fun w => !shouldRemove (loadWordsIngest lines) w) := by
    split at h
    · exact List.mem_of_mem_filter h
    · exact h
  have h3 := List.of_mem_filter h2
  have h4 : shouldRemove (loadWordsIngest lines) w = false := by
    simpa using h3
  unfold shouldRemove at h4
  simp only [Bool.or_eq_false_iff] at h4
  exact ⟨h4.1.2, h4.2⟩

/-- C5: with the frequency file absent, or present but an empty JSON
object (total effective count 0), dictionary construction succeeds with
`default_cost = 10.0` and `unknown_cost = 20.0`, and every word in the
dictionary is assigned cost 10.0. -/
theorem default_costs_when_freq_missing_or_empty :
    (∀ (nlg : ℚ → ℚ) (lines : List (List CP)),
      (Dictionary.new nlg lines none).default_cost = 10 ∧
      (Dictionary.new nlg lines none).unknown_cost = 20 ∧
      (Dictionary.new nlg lines none).costs.all
        (fun q => decide (q = 10)) = true) ∧
    (∀ (nlg : ℚ → ℚ) (lines : List (List CP)),
      (Dictionary.new nlg lines (some [])).default_cost = 10 ∧
      (Dictionary.new nlg lines (some [])).unknown_cost = 20 ∧
      (Dictionary.new nlg lines (some [])).costs.all
        (fun q => decide (q = 10)) = true) := by
  have hall : ∀ (ws : List (List CP)),
      ((buildGo [] (10 : ℚ) ws 0 [] [] TrieNode.empty).2.1).all
        (fun q => decide (q = 10)) = true := by
    intro ws
    rw [buildGo_costs]
    rw [List.all_eq_true]
    intro q hq
    rcases List.mem_map.mp (by simpa using hq) with ⟨w, _, hw⟩
    simp [costFind] at hw
    simp [← hw]
  constructor
  · intro nlg lines
    refine ⟨rfl, rfl, ?_⟩
    show ((buildGo (calculate_costs nlg none (load_words lines).1).1
      (calculate_costs nlg none (load_words lines).1).2.1
      (load_words lines).1 0 [] [] TrieNode.empty).2.1).all _ = true
    rw [calculate_costs_none]
    exact hall _
  · intro nlg lines
    have hc := calculate_costs_empty nlg (load_words lines).1
    refine ⟨?_, ?_, ?_⟩
    · show (calculate_costs nlg (some []) (load_words lines).1).2.1 = 10
      rw [hc]
    · show (calculate_costs nlg (some []) (load_words lines).1).2.2 = 20
      rw [hc]
    · show ((buildGo (calculate_costs nlg (some []) (load_words lines).1).1
        (calculate_costs nlg (some []) (load_words lines).1).2.1
        (load_words lines).1 0 [] [] TrieNode.empty).2.1).all _ = true
      rw [hc]
      exact hall _

/-- C6: after construction, no stored dictionary word contains the
reduplication sign U+17D7 and none begins with the subscript former
U+17D2 — the variant filter removes every such word, including words
introduced by variant expansion. -/
theorem dictionary_words_filtered (nlg : ℚ → ℚ) (lines : List (List CP))
    (freq : Option (List (List CP × ℚ))) :
    (Dictionary.new nlg lines freq).words.all
      (fun p => !p.1.contains 0x17D7 && !startsWithCoeng p.1) = true := by
  rw [List.all_eq_true]
  intro p hp
  have hmem : p ∈ (buildGo (calculate_costs nlg freq (load_words lines).1).1
      (calculate_costs nlg freq (load_words lines).1).2.1
      (load_words lines).1 0 [] [] TrieNode.empty).1 := hp
  obtain ⟨w, k⟩ := p
  rcases buildGo_words_mem _ _ _ _ _ _ _ w k hmem with h1 | h1
  · simp at h1
  · obtain ⟨hc, hs⟩ := load_words_filtered h1
    have hnc : (0x17D7 : CP) ∉ w := by
      simpa [List.contains, List.elem_eq_mem] using hc
    simp [hnc, hs]

/-- C7: one step of post-processing pass 1.  For each token `s`: if `s`
is invalid-single then (i) when both the previous and next contexts are
separators or list boundaries, `s` is appended unchanged; (ii) otherwise,
when the last output token exists and its first codepoint is not a
separator, that token is popped and `prev ++ s` is appended as one token;
(iii) otherwise `s` is appended unchanged.  Tokens that are not
invalid-single are appended unchanged. -/
theorem snap_invalid_single_step (d : Dictionary) (seg : List CP)
    (rest : List (List CP)) (j : ℕ) (out : List (List CP)) :
    snapGo d (seg :: rest) j out =
      if invalidSingleTok d seg = true then
        if prevSepCtx out j = true ∧ nextSepCtx rest = true then
          snapGo d rest (j + 1) (out ++ [seg])
        else if out ≠ [] ∧
            is_separator (get_first_char (out.getLastD [])) = false then
          snapGo d rest (j + 1) (out.dropLast ++ [out.getLastD [] ++ seg])
        else snapGo d rest (j + 1) (out ++ [seg])
      else snapGo d rest (j + 1) (out ++ [seg]) := by
  show (if invalidSingleTok d seg = true then
          if (prevSepCtx out j && nextSepCtx rest) = true then
            snapGo d rest (j + 1) (out ++ [seg])
          else if (!out.isEmpty) = true then
            if (!is_separator (get_first_char (out.getLastD []))) = true then
              snapGo d rest (j + 1) (out.dropLast ++ [out.getLastD [] ++ seg])
            else snapGo d rest (j + 1) (out ++ [seg])
          else snapGo d rest (j + 1) (out ++ [seg])
        else snapGo d rest (j + 1) (out ++ [seg])) = _
  have hinner :
      (if (!out.isEmpty) = true then
        if (!is_separator (get_first_char (out.getLastD []))) = true then
          snapGo d rest (j + 1) (out.dropLast ++ [out.getLastD [] ++ seg])
        else snapGo d rest (j + 1) (out ++ [seg])
      else snapGo d rest (j + 1) (out ++ [seg])) =
      (if out ≠ [] ∧
          is_separator (get_first_char (out.getLastD [])) = false then
        snapGo d rest (j + 1) (out.dropLast ++ [out.getLastD [] ++ seg])
      else snapGo d rest (j + 1) (out ++ [seg])) := by
    by_cases hoe : out.isEmpty = true
    · rw [if_neg (by simp [hoe]),
        if_neg (fun hcon => hcon.1 (List.isEmpty_iff.mp hoe))]
    · have hne : out ≠ [] := fun hcon => hoe (by rw [hcon]; rfl)
      rw [if_pos (by simp [hoe])]
      by_cases hsep : is_separator (get_first_char (out.getLastD [])) = true
      · rw [if_neg (fun hcon => by rw [hsep] at hcon; exact absurd hcon (by decide)),
          if_neg (fun hcon => by
            have := hcon.2
            rw [hsep] at this
            exact absurd this (by decide))]
      · have hsep' : is_separator (get_first_char (out.getLastD [])) = false := by
          cases hx : is_separator (get_first_char (out.getLastD [])) with
          | false => rfl
          | true => exact absurd hx hsep
        rw [if_pos (by rw [hsep']; decide), if_pos ⟨hne, hsep'⟩]
  by_cases hinv : invalidSingleTok d seg = true
  · rw [if_pos hinv, if_pos hinv]
    by_cases hps : prevSepCtx out j = true
    · by_cases hns : nextSepCtx rest = true
      · rw [if_pos (show (prevSepCtx out j && nextSepCtx rest) = true by
            simp [hps, hns]),
          if_pos (show prevSepCtx out j = true ∧ nextSepCtx rest = true from
            ⟨hps, hns⟩)]
      · rw [if_neg (show ¬(prevSepCtx out j && nextSepCtx rest) = true by
            simp [hns]),
          if_neg (show ¬(prevSepCtx out j = true ∧ nextSepCtx rest = true) by
            simp [hns])]
        exact hinner
    · rw [if_neg (show ¬(prevSepCtx out j && nextSepCtx rest) = true by
          simp [hps]),
        if_neg (show ¬(prevSepCtx out j = true ∧ nextSepCtx rest = true) by
          simp [hps])]
      exact hinner
  · rw [if_neg hinv, if_neg hinv]

/-! ## Trie correctness -/

theorem trieLookup_empty : ∀ v : List CP, trieLookup TrieNode.empty v = none
  | [] => rfl
  | c :: rest => rfl

theorem childAssoc_update_of_found {cs : List (CP × TrieNode)} {c : CP}
    {child : TrieNode} (t : TrieNode) (h : childAssoc cs c = some child) :
    childAssoc (childUpdate cs c t) c = some t := by
  induction cs with
  | nil => simp [childAssoc] at h
  | cons p rest ih =>
    by_cases hc : p.1 = c
    · simp [childAssoc, childUpdate, hc]
    · unfold childAssoc at h
      rw [List.find?_cons_of_neg _ (by simpa using hc)] at h
      unfold childAssoc childUpdate
      rw [List.map_cons, if_neg hc, List.find?_cons_of_neg _ (by simpa using hc)]
      exact ih h

theorem childAssoc_update_other {cs : List (CP × TrieNode)} {c c' : CP}
    (t : TrieNode) (h : c' ≠ c) :
    childAssoc (childUpdate cs c t) c' = childAssoc cs c' := by
  induction cs with
  | nil => rfl
  | cons p rest ih =>
    by_cases hc : p.1 = c
    · unfold childAssoc childUpdate at ih ⊢
      rw [List.map_cons, if_pos hc,
        List.find?_cons_of_neg _ (by simpa using (Ne.symm h)),
        List.find?_cons_of_neg _ (by simp [hc]; exact fun hcon => h hcon.symm)]
      exact ih
    · unfold childAssoc childUpdate at ih ⊢
      rw [List.map_cons, if_neg hc]
      by_cases hpc : p.1 = c'
      · rw [List.find?_cons_of_pos _ (by simpa using hpc),
          List.find?_cons_of_pos _ (by simpa using hpc)]
      · rw [List.find?_cons_of_neg _ (by simpa using hpc),
          List.find?_cons_of_neg _ (by simpa using hpc)]
        exact ih

theorem childAssoc_append_self {cs : List (CP × TrieNode)} {c : CP}
    (t : TrieNode) (h : childAssoc cs c = none) :
    childAssoc (cs ++ [(c, t)]) c = some t := by
  unfold childAssoc at h ⊢
  rw [List.find?_append]
  have hfn : List.find? (fun p => decide (p.1 = c)) cs = none := by
    cases hx : List.find? (fun p => decide (p.1 = c)) cs with
    | none => rfl
    | some p => rw [hx] at h; simp at h
  rw [hfn]
  simp

theorem childAssoc_append_other {cs : List (CP × TrieNode)} {c c' : CP}
    (t : TrieNode) (h : c' ≠ c) :
    childAssoc (cs ++ [(c, t)]) c' = childAssoc cs c' := by
  unfold childAssoc
  rw [List.find?_append]
  cases hx : List.find? (fun p => decide (p.1 = c')) cs with
  | some p => simp
  | none =>
    simp only [Option.or_none, Option.none_or]
    rw [List.find?_cons_of_neg _ (by simp; exact fun hcon => h hcon.symm)]
    simp [List.find?]

theorem children_node (cs : List (CP × TrieNode)) (b : Bool) (q : ℚ) :
    (TrieNode.node cs b q).children = cs := rfl

theorem isWord_node (cs : List (CP × TrieNode)) (b : Bool) (q : ℚ) :
    (TrieNode.node cs b q).isWord = b := rfl

theorem cost_node (cs : List (CP × TrieNode)) (b : Bool) (q : ℚ) :
    (TrieNode.node cs b q).cost = q := rfl

theorem trieLookup_nil (t : TrieNode) :
    trieLookup t [] = if t.isWord then some t.cost else none := rfl

theorem trieLookup_cons (t : TrieNode) (c : CP) (rest : List CP) :
    trieLookup t (c :: rest) =
      match childAssoc t.children c with
      | some child => trieLookup child rest
      | none => none := rfl

theorem trieLookup_insert :
    ∀ (w : List CP) (t : TrieNode) (q : ℚ) (v : List CP),
    trieLookup (trieInsert t w q) v = if v = w then some q else trieLookup t v
  | [], t, q, v => by
    cases v with
    | nil =>
      rw [if_pos rfl]
      show trieLookup (.node t.children true q) [] = some q
      rw [trieLookup_nil, isWord_node, cost_node, if_pos rfl]
    | cons vh vrest =>
      rw [if_neg (by simp)]
      show trieLookup (.node t.children true q) (vh :: vrest) = _
      rw [trieLookup_cons, children_node, trieLookup_cons]
  | c :: wrest, t, q, v => by
    cases hfind : childAssoc t.children c with
    | some child =>
      have hins : trieInsert t (c :: wrest) q =
          .node (childUpdate t.children c (trieInsert child wrest q))
            t.isWord t.cost := by
        conv_lhs => rw [trieInsert]
        rw [hfind]
      cases v with
      | nil =>
        rw [hins, if_neg (by simp), trieLookup_nil, trieLookup_nil,
          isWord_node, cost_node]
      | cons vh vrest =>
        rw [hins, trieLookup_cons, children_node]
        by_cases hv : vh = c
        · subst hv
          rw [childAssoc_update_of_found (trieInsert child wrest q) hfind]
          show trieLookup (trieInsert child wrest q) vrest = _
          rw [trieLookup_insert wrest child q vrest]
          by_cases hvw : vrest = wrest
          · rw [if_pos hvw, if_pos (by rw [hvw])]
          · rw [if_neg hvw, if_neg (by simp [hvw]), trieLookup_cons, hfind]
        · rw [childAssoc_update_other _ hv, if_neg (by simp [hv]),
            trieLookup_cons]
    | none =>
      have hins : trieInsert t (c :: wrest) q =
          .node (t.children ++ [(c, trieInsert TrieNode.empty wrest q)])
            t.isWord t.cost := by
        conv_lhs => rw [trieInsert]
        rw [hfind]
      cases v with
      | nil =>
        rw [hins, if_neg (by simp), trieLookup_nil, trieLookup_nil,
          isWord_node, cost_node]
      | cons vh vrest =>
        rw [hins, trieLookup_cons, children_node]
        by_cases hv : vh = c
        · subst hv
          rw [childAssoc_append_self _ hfind]
          show trieLookup (trieInsert TrieNode.empty wrest q) vrest = _
          rw [trieLookup_insert wrest TrieNode.empty q vrest]
          by_cases hvw : vrest = wrest
          · rw [if_pos hvw, if_pos (by rw [hvw])]
          · rw [if_neg hvw, if_neg (by simp [hvw]), trieLookup_empty,
              trieLookup_cons, hfind]
        · rw [childAssoc_append_other _ hv, if_neg (by simp [hv]),
            trieLookup_cons]

theorem wordsFind_cons (p : List CP × ℕ) (l : List (List CP × ℕ))
    (v : List CP) :
    wordsFind (p :: l) v = if p.1 = v then some p.2 else wordsFind l v := by
  unfold wordsFind
  by_cases h : p.1 = v
  · rw [List.find?_cons_of_pos _ (by simpa using h), if_pos h]
    rfl
  · rw [List.find?_cons_of_neg _ (by simpa using h), if_neg h]

theorem wordsFind_append_single_absent (l : List (List CP × ℕ)) (w : List CP)
    (i : ℕ) (h : wordsFind l w = none) :
    wordsFind (l ++ [(w, i)]) w = some i := by
  unfold wordsFind at h ⊢
  rw [List.find?_append]
  have h0 : l.find? (fun p => decide (p.1 = w)) = none := by
    cases hf : l.find? (fun p => decide (p.1 = w)) with
    | none => rfl
    | some p => rw [hf] at h; simp at h
  rw [h0]
  simp [List.find?]

theorem wordsFind_append_single_other (l : List (List CP × ℕ)) (w v : List CP)
    (i : ℕ) (h : v ≠ w) :
    wordsFind (l ++ [(w, i)]) v = wordsFind l v := by
  unfold wordsFind
  rw [List.find?_append]
  have h1 : List.find? (fun p => decide (p.1 = v)) [(w, i)] = none := by
    simp [List.find?, Ne.symm h]
  rw [h1, Option.or_none]

theorem wordsFind_map_overwrite_self :
    ∀ (l : List (List CP × ℕ)) (w : List CP) (i : ℕ),
    (wordsFind l w).isSome = true →
    wordsFind (l.map (fun p => if p.1 = w then (w, i) else p)) w = some i
  | [], w, i, h => by simp [wordsFind] at h
  | p :: l, w, i, h => by
    by_cases hp : p.1 = w
    · rw [List.map_cons, if_pos hp, wordsFind_cons]
      simp
    · rw [List.map_cons, if_neg hp, wordsFind_cons, if_neg hp]
      apply wordsFind_map_overwrite_self l w i
      rw [wordsFind_cons, if_neg hp] at h
      exact h

theorem wordsFind_map_overwrite_other :
    ∀ (l : List (List CP × ℕ)) (w v : List CP) (i : ℕ), v ≠ w →
    wordsFind (l.map (fun p => if p.1 = w then (w, i) else p)) v = wordsFind l v
  | [], _, _, _, _ => rfl
  | p :: l, w, v, i, h => by
    by_cases hp : p.1 = w
    · rw [List.map_cons, if_pos hp, wordsFind_cons, wordsFind_cons,
        if_neg (show ((w, i) : List CP × ℕ).1 ≠ v from fun hh => h hh.symm),
        if_neg (show p.1 ≠ v from fun hh => h (hh.symm.trans hp))]
      exact wordsFind_map_overwrite_other l w v i h
    · rw [List.map_cons, if_neg hp, wordsFind_cons, wordsFind_cons]
      by_cases hv : p.1 = v
      · rw [if_pos hv, if_pos hv]
      · rw [if_neg hv, if_neg hv]
        exact wordsFind_map_overwrite_other l w v i h

theorem wordsFind_insert_self (l : List (List CP × ℕ)) (w : List CP) (i : ℕ) :
    wordsFind (wordsInsert l w i) w = some i := by
  unfold wordsInsert
  by_cases h : (wordsFind l w).isSome = true
  · rw [if_pos h]
    exact wordsFind_map_overwrite_self l w i h
  · rw [if_neg h]
    apply wordsFind_append_single_absent
    cases hf : wordsFind l w with
    | none => rfl
    | some k => rw [hf] at h; simp at h

theorem wordsFind_insert_other (l : List (List CP × ℕ)) (w v : List CP)
    (i : ℕ) (h : v ≠ w) : wordsFind (wordsInsert l w i) v = wordsFind l v := by
  unfold wordsInsert
  by_cases hs : (wordsFind l w).isSome = true
  · rw [if_pos hs]
    exact wordsFind_map_overwrite_other l w v i h
  · rw [if_neg hs]
    exact wordsFind_append_single_other l w v i h

theorem lookupGo_eq (cps : List CP) :
    ∀ (k : ℕ) (t : TrieNode) (start fin : ℕ), fin - start = k →
    fin ≤ cps.length →
    lookupGo cps t start fin = trieLookup t ((cps.drop start).take (fin - start))
  | 0, t, start, fin, hk, _ => by
    rw [lookupGo, dif_neg (by omega), hk, List.take_zero, trieLookup_nil]
  | k + 1, t, start, fin, hk, h2 => by
    have hs : start < fin := by omega
    have hsl : start < cps.length := by omega
    have hget : cps.getD start 0 = cps[start] := by
      rw [List.getD_eq_getElem?_getD, List.getElem?_eq_getElem hsl]
      rfl
    have hd : cps.drop start = cps[start] :: cps.drop (start + 1) :=
      List.drop_eq_getElem_cons hsl
    have hfs : fin - start = (fin - (start + 1)) + 1 := by omega
    rw [lookupGo, dif_pos hs, hget, hd, hfs, List.take_succ_cons,
      trieLookup_cons]
    cases hc : childAssoc t.children cps[start] with
    | some child =>
      show lookupGo cps child (start + 1) fin =
        trieLookup child ((cps.drop (start + 1)).take (fin - (start + 1)))
      exact lookupGo_eq cps k child (start + 1) fin (by omega) h2
    | none => rfl

theorem buildGo_trie (wc : List (List CP × ℚ)) (dc : ℚ) :
    ∀ (ws : List (List CP)) (i : ℕ) (wm : List (List CP × ℕ)) (cv : List ℚ)
      (tr : TrieNode) (v : List CP),
    trieLookup (buildGo wc dc ws i wm cv tr).2.2 v =
      if v ∈ ws then some ((costFind wc v).getD dc) else trieLookup tr v
  | [], i, wm, cv, tr, v => by
    rw [buildGo, if_neg (by simp)]
  | w :: rest, i, wm, cv, tr, v => by
    rw [buildGo]
    rw [buildGo_trie wc dc rest (i + 1), trieLookup_insert]
    by_cases h1 : v ∈ rest
    · rw [if_pos h1, if_pos (show v ∈ w :: rest by simp [h1])]
    · rw [if_neg h1]
      by_cases h2 : v = w
      · rw [if_pos h2, if_pos (show v ∈ w :: rest by simp [h2]), h2]
      · rw [if_neg h2, if_neg (show ¬v ∈ w :: rest by simp [h1, h2])]

theorem buildGo_mem (wc : List (List CP × ℚ)) (dc : ℚ) :
    ∀ (ws : List (List CP)) (i : ℕ) (wm : List (List CP × ℕ)) (cv : List ℚ)
      (tr : TrieNode) (v : List CP),
    (wordsFind (buildGo wc dc ws i wm cv tr).1 v).isSome =
      (decide (v ∈ ws) || (wordsFind wm v).isSome)
  | [], i, wm, cv, tr, v => by
    rw [buildGo]
    simp
  | w :: rest, i, wm, cv, tr, v => by
    rw [buildGo]
    rw [buildGo_mem wc dc rest (i + 1)]
    by_cases h2 : v = w
    · rw [h2, wordsFind_insert_self]
      simp
    · rw [wordsFind_insert_other wm w v i h2]
      simp [h2]

theorem buildGo_ptr (wc : List (List CP × ℚ)) (dc : ℚ) :
    ∀ (ws : List (List CP)) (i : ℕ) (wm : List (List CP × ℕ)) (cv : List ℚ)
      (tr : TrieNode), i = cv.length →
    (∀ v k, wordsFind wm v = some k →
      cv[k]? = some ((costFind wc v).getD dc)) →
    ∀ v k, wordsFind (buildGo wc dc ws i wm cv tr).1 v = some k →
      (buildGo wc dc ws i wm cv tr).2.1[k]? = some ((costFind wc v).getD dc)
  | [], i, wm, cv, tr, _, hptr, v, k, hfind => by
    rw [buildGo] at hfind ⊢
    exact hptr v k hfind
  | w :: rest, i, wm, cv, tr, hi, hptr, v, k, hfind => by
    rw [buildGo] at hfind ⊢
    refine buildGo_ptr wc dc rest (i + 1) (wordsInsert wm w i)
      (cv ++ [(costFind wc w).getD dc]) (trieInsert tr w ((costFind wc w).getD dc))
      (by simp [hi]) ?_ v k hfind
    intro v2 k2 hf2
    by_cases h2 : v2 = w
    · subst h2
      rw [wordsFind_insert_self] at hf2
      have hk2 : k2 = i := (Option.some.inj hf2).symm
      rw [hk2, hi, List.getElem?_concat_length]
    · rw [wordsFind_insert_other wm w v2 i h2] at hf2
      have hold := hptr v2 k2 hf2
      have hk2 : k2 < cv.length := by
        by_contra hcon
        rw [List.getElem?_eq_none (by omega)] at hold
        simp at hold
      rw [List.getElem?_append_left hk2]
      exact hold

/-- C10: for every dictionary produced by `Dictionary::new`, every codepoint
slice `cps` and indices `start ≤ fin ≤ cps.length`, `lookup_codepoints cps
start fin` returns `some c` iff the word `cps[start..fin]` is a key of the
`words` map, and in that case `c` equals `get_word_cost` of that word: the
trie lookup and the hash-map lookup agree on membership and cost. -/
theorem trie_lookup_agrees_with_map (nlg : ℚ → ℚ) (dictLines : List (List CP))
    (freq : Option (List (List CP × ℚ))) (cps : List CP) (start fin : ℕ)
    (c : ℚ) (h1 : start ≤ fin) (h2 : fin ≤ cps.length) :
    ((Dictionary.new nlg dictLines freq).lookup_codepoints cps start fin
        = some c ↔
      (Dictionary.new nlg dictLines freq).contains
          ((cps.drop start).take (fin - start)) = true ∧
      c = (Dictionary.new nlg dictLines freq).get_word_cost
          ((cps.drop start).take (fin - start))) := by
  obtain ⟨ws, wc, dc, hT, hW, hC, hD⟩ :
      ∃ ws wc dc,
        (Dictionary.new nlg dictLines freq).trie =
          (buildGo wc dc ws 0 [] [] TrieNode.empty).2.2 ∧
        (Dictionary.new nlg dictLines freq).words =
          (buildGo wc dc ws 0 [] [] TrieNode.empty).1 ∧
        (Dictionary.new nlg dictLines freq).costs =
          (buildGo wc dc ws 0 [] [] TrieNode.empty).2.1 ∧
        (Dictionary.new nlg dictLines freq).default_cost = dc :=
    ⟨_, _, _, rfl, rfl, rfl, rfl⟩
  have hlk2 : (Dictionary.new nlg dictLines freq).lookup_codepoints cps
      start fin =
      trieLookup (Dictionary.new nlg dictLines freq).trie
        ((cps.drop start).take (fin - start)) :=
    lookupGo_eq cps (fin - start) (Dictionary.new nlg dictLines freq).trie
      start fin rfl h2
  rw [hlk2]
  generalize (cps.drop start).take (fin - start) = v
  have htrie : trieLookup (Dictionary.new nlg dictLines freq).trie v =
      if v ∈ ws then some ((costFind wc v).getD dc) else none := by
    rw [hT, buildGo_trie wc dc ws 0 [] [] TrieNode.empty v, trieLookup_empty]
  by_cases hvm : v ∈ ws
  · have hsome : (wordsFind (Dictionary.new nlg dictLines freq).words v).isSome
        = true := by
      rw [hW, buildGo_mem wc dc ws 0]
      simp [hvm, wordsFind]
    obtain ⟨k, hk⟩ := Option.isSome_iff_exists.1 hsome
    have hk2 : wordsFind (buildGo wc dc ws 0 [] [] TrieNode.empty).1 v
        = some k := by
      rw [← hW]
      exact hk
    have hptr := buildGo_ptr wc dc ws 0 [] [] TrieNode.empty rfl
      (by intro v2 k2 hcon; simp [wordsFind] at hcon) v k hk2
    have hgwc : (Dictionary.new nlg dictLines freq).get_word_cost v =
        (costFind wc v).getD dc := by
      unfold Dictionary.get_word_cost
      rw [hk]
      show (match (Dictionary.new nlg dictLines freq).costs[k]? with
        | some q => q
        | none => (Dictionary.new nlg dictLines freq).default_cost) =
        (costFind wc v).getD dc
      rw [hC, hptr]
    have hcont : (Dictionary.new nlg dictLines freq).contains v = true := by
      unfold Dictionary.contains
      rw [hk]
      rfl
    rw [htrie, if_pos hvm, hgwc, hcont]
    constructor
    · intro hsc
      exact ⟨rfl, (Option.some.inj hsc).symm⟩
    · rintro ⟨-, rfl⟩
      rfl
  · have hnone : wordsFind (Dictionary.new nlg dictLines freq).words v
        = none := by
      have hm := buildGo_mem wc dc ws 0 [] [] TrieNode.empty v
      rw [← hW] at hm
      cases hf : wordsFind (Dictionary.new nlg dictLines freq).words v with
      | none => rfl
      | some k =>
        rw [hf] at hm
        simp [hvm, wordsFind] at hm
    have hcont : (Dictionary.new nlg dictLines freq).contains v = false := by
      unfold Dictionary.contains
      rw [hnone]
      rfl
    rw [htrie, if_neg hvm, hcont]
    simp

theorem trie_lookup_agrees_with_map_witness :
    (0 : ℕ) ≤ 1 ∧ (1 : ℕ) ≤ ([0x1780] : List CP).length ∧
    ((Dictionary.new (fun q => q) [[0x1780]] none).lookup_codepoints
        [0x1780] 0 1 = some 10 ↔
      (Dictionary.new (fun q => q) [[0x1780]] none).contains
          ((([0x1780] : List CP).drop 0).take (1 - 0)) = true ∧
      (10 : ℚ) = (Dictionary.new (fun q => q) [[0x1780]] none).get_word_cost
          ((([0x1780] : List CP).drop 0).take (1 - 0))) :=
  ⟨by decide, by decide,
    trie_lookup_agrees_with_map (fun q => q) [[0x1780]] none [0x1780] 0 1 10
      (by decide) (by decide)⟩
